import Mathlib

/-!
# Douglas-Peucker line simplification (vector_tile_douglas_peucker.hpp)

A shallow embedding of `mapnik::vector_tile_impl::detail::consider` and
`mapnik::vector_tile_impl::douglas_peucker`, followed by the properties proved
about them.

Modelling decisions.

* `value_type` and `calc_type` are both instantiated with the rationals: the
  arithmetic is exact, the order is total, and the division `c1 / c2` is the
  field division.
* The `std::vector<douglas_peucker_point>` is a `List`; an iterator into it is
  its index (a `Nat`), the half-open iterator range `[begin, end)` is the pair
  of indices `b e`.  Ranges are well formed (`b ≤ e`), as they are at every
  call site of the source.
* An access the C++ standard leaves undefined (reading through an iterator
  outside the vector, `front()`/`back()` of an empty vector, dereferencing the
  uninitialised iterator `candidate`) makes the embedded function return
  `none`.  A result `some _` therefore says that the run met no such access.
* The output iterator `out` is the list of points appended to it, in order.
* For a `calc_type` that rounds, a second copy of the functions takes the
  rounding as a parameter (`consider_dist_fl` to `douglas_peucker_fl`).
-/

namespace vector_tile_impl

/-! ## The program

The data types and functions of the source, then the vocabulary the properties
are stated in. -/

/-- A `mapnik::geometry::point<T>`: a pair of coordinates. -/
structure Point where
  x : ℚ
  y : ℚ
deriving DecidableEq

/-- The struct `detail::douglas_peucker_point<T>`: a (reference to a) point and
the flag `included`. -/
structure douglas_peucker_point where
  p : Point
  included : Bool
deriving DecidableEq

/-- The converting constructor `douglas_peucker_point(ap)`: `p(ap)`,
`included(false)` (source lines 25-28). -/
def douglas_peucker_point.ofPoint (ap : Point) : douglas_peucker_point :=
  { p := ap, included := false }

/-- The value `dist` computed for one interior point `p` in the body of the
scan loop of `consider` (source lines 67-69 and 72-97); `first` is `begin->p`,
`last` is `last->p`.  The quantities `v_x`, `v_y`, `c2` are computed once before
the loop in the source; they depend only on `first` and `last`. -/
def consider_dist (first last p : Point) : ℚ :=
  let v_x := last.x - first.x
  let v_y := last.y - first.y
  let c2 := v_x * v_x + v_y * v_y
  let w_x := p.x - first.x
  let w_y := p.y - first.y
  let c1 := w_x * v_x + w_y * v_y
  if c1 ≤ 0 then
    let dx := p.x - first.x
    let dy := p.y - first.y
    dx * dx + dy * dy
  else if c2 ≤ c1 then
    let dx := p.x - last.x
    let dy := p.y - last.y
    dx * dx + dy * dy
  else
    let b := c1 / c2
    let p_x := first.x + b * v_x
    let p_y := first.y + b * v_y
    let dx := p.x - p_x
    let dy := p.y - p_y
    dx * dx + dy * dy

/-- The scan loop `for (it = begin + 1; it != last; ++it)` of `consider`
(source lines 70-103).  The first argument counts the iterations still to run,
the second is the iterator `it`, the pair is the loop state `(md, candidate)`;
`candidate = none` is the uninitialised iterator. -/
def scan (v : List douglas_peucker_point) (first last : Point) :
    Nat → Nat → ℚ × Option Nat → Option (ℚ × Option Nat)
  | 0, _, st => some st
  | n + 1, it, (md, candidate) =>
    match v[it]? with
    | none => none
    | some d =>
      let dist := consider_dist first last d.p
      if md < dist then scan v first last n (it + 1) (dist, some it)
      else scan v first last n (it + 1) (md, candidate)

/-- The assignment `it->included = true` through the iterator `i`. -/
def set_included (v : List douglas_peucker_point) (i : Nat) :
    Option (List douglas_peucker_point) :=
  match v[i]? with
  | none => none
  | some d => some (v.set i { d with included := true })

set_option linter.unusedVariables false in
/-- The function `detail::consider(begin, end, max_dist)` (source lines 36-114).
The vector is passed in and the vector with the updated flags is returned. -/
def consider (v : List douglas_peucker_point) (b e : Nat) (max_dist : ℚ) :
    Option (List douglas_peucker_point) :=
  if e - b ≤ 2 then some v
  else
    match v[b]?, v[e - 1]? with
    | some first, some last =>
      match h : scan v first.p last.p (e - 1 - (b + 1)) (b + 1) (-1, none) with
      | none => none
      | some (md, none) => if max_dist < md then none else some v
      | some (md, some candidate) =>
        if max_dist < md then
          match set_included v candidate with
          | none => none
          | some v1 =>
            match consider v1 b (candidate + 1) max_dist with
            | none => none
            | some v2 => consider v2 candidate e max_dist
        else some v
    | _, _ => none
termination_by e - b
decreasing_by
  all_goals
    -- the candidate is one of the iterators the scan loop visited
    have key : ∀ (n it : Nat) (st : ℚ × Option Nat) (md0 : ℚ) (c : Nat),
        b < it → (∀ c0, st.2 = some c0 → b < c0 ∧ c0 < it) →
        scan v first.p last.p n it st = some (md0, some c) → b < c ∧ c < it + n := by
      intro n
      induction n with
      | zero =>
        intro it st md0 c _ hst hs
        simp only [scan, Option.some.injEq] at hs
        have := hst c (by rw [hs])
        omega
      | succ n ih =>
        intro it st md0 c hit hst hs
        obtain ⟨md1, cand1⟩ := st
        simp only [scan] at hs
        cases hv : v[it]? with
        | none => simp [hv] at hs
        | some d =>
          simp only [hv] at hs
          split at hs
          · have := ih (it + 1) _ md0 c (by omega)
              (by intro c0 hc0; simp at hc0; omega) hs
            omega
          · have := ih (it + 1) _ md0 c (by omega)
              (by intro c0 hc0; have := hst c0 hc0; omega) hs
            omega
    have hc := key _ _ _ md candidate (by omega) (by intro c0 hc0; cases hc0) h
    omega

/-- The copy loop of `douglas_peucker` (source lines 139-153): every element
whose flag is set appends its point to the output. -/
def emit : List douglas_peucker_point → List Point
  | [] => []
  | d :: rest => if d.included then d.p :: emit rest else emit rest

/-- The selection phase of `douglas_peucker` (source lines 123-137): build the
vector of candidates, set the flags of `front()` and `back()`, square the
distance, run `consider` over the whole vector. -/
def select (range : List Point) (max_distance : ℚ) :
    Option (List douglas_peucker_point) :=
  let ref_candidates := range.map douglas_peucker_point.ofPoint
  match set_included ref_candidates 0 with
  | none => none
  | some v0 =>
    match set_included v0 (v0.length - 1) with
    | none => none
    | some v1 =>
      let max_sqrd := max_distance * max_distance
      consider v1 0 v1.length max_sqrd

/-- The function `douglas_peucker(range, out, max_distance)` (source lines
118-154); the result is the sequence of points written to `out`. -/
def douglas_peucker (range : List Point) (max_distance : ℚ) : Option (List Point) :=
  match select range max_distance with
  | none => none
  | some v => some (emit v)

/-- The point stored at index `i` (the origin outside the vector). -/
def pointAt (v : List douglas_peucker_point) (i : Nat) : Point :=
  match v[i]? with
  | some d => d.p
  | none => ⟨0, 0⟩

/-- The flag stored at index `i` (`false` outside the vector). -/
def flagAt (v : List douglas_peucker_point) (i : Nat) : Bool :=
  match v[i]? with
  | some d => d.included
  | none => false

/-- The distance the scan of the range with first index `b` and last index
`l` computes for the element at index `i`. -/
def distAt (v : List douglas_peucker_point) (b l i : Nat) : ℚ :=
  consider_dist (pointAt v b) (pointAt v l) (pointAt v i)

/-- The pair `(md, c)` is what the scan of the range with first index `b` and
last index `l` leaves in `md` and `candidate`: `c` is strictly interior, `md` is
its distance, no interior distance is larger and none before `c` is equal. -/
def IsSplit (v : List douglas_peucker_point) (b l : Nat) (md : ℚ) (c : Nat) : Prop :=
  b < c ∧ c < l ∧ md = distAt v b l c ∧
    (∀ i, b < i → i < l → distAt v b l i ≤ md) ∧
    (∀ i, b < i → i < c → distAt v b l i < md)

/-- What a call of `consider` on the range `[b, e)` leaves alone: the points,
the flags outside the interior of the range, and every flag that was set. -/
def Frame (v : List douglas_peucker_point) (b e : Nat) (v3 : List douglas_peucker_point) :
    Prop :=
  (∀ j, pointAt v3 j = pointAt v j) ∧
  (∀ j, j ≤ b ∨ e ≤ j + 1 → flagAt v3 j = flagAt v j) ∧
  (∀ j, flagAt v j = true → flagAt v3 j = true)

/-- The indices whose flag is set, in increasing order. -/
def kept_indices (v : List douglas_peucker_point) : List Nat :=
  (List.range v.length).filter (fun i => flagAt v i)

/-- The index of the `j`-th flagged element (0 when there are fewer). -/
def kept_at (v : List douglas_peucker_point) (j : Nat) : Nat :=
  ((kept_indices v)[j]?).getD 0

/-- The squared Euclidean distance from `p` to the point `first + s * (last - first)`
of the line through `first` and `last`; the closed segment is `0 ≤ s ≤ 1`. -/
def sq_dist_at (first last p : Point) (s : ℚ) : ℚ :=
  (p.x - (first.x + s * (last.x - first.x))) * (p.x - (first.x + s * (last.x - first.x))) +
    (p.y - (first.y + s * (last.y - first.y))) * (p.y - (first.y + s * (last.y - first.y)))

/-! ### The same functions for a `calc_type` that rounds

`calc_type` is a template parameter.  The functions above take it exact.  The
functions below are the same source lines with every arithmetic operation
followed by a rounding `fl`; with `fl = id` they are the functions above
(`douglas_peucker_fl_id`), with `fl = double_round` they are the instance
`calc_type = double`. -/

/-- Rounding to the nearest integer, ties to the even one. -/
def round_half_even (x : ℚ) : ℤ :=
  let f := ⌊x⌋
  let r := x - f
  if r < 1 / 2 then f
  else if 1 / 2 < r then f + 1
  else if f % 2 = 0 then f else f + 1

/-- The rounding of IEEE 754 binary64 (`double`), round to nearest, ties to
even: a value of magnitude in `[2 ^ e, 2 ^ (e + 1))` is rounded to a multiple
of `2 ^ (e - 52)`, and below `2 ^ (-1022)` (subnormal range) to a multiple of
`2 ^ (-1074)`.  Overflow to infinity is not modelled. -/
def double_round (q : ℚ) : ℚ :=
  if q = 0 then 0
  else
    let e : ℤ := max (Int.log 2 |q|) (-1022)
    round_half_even (q / 2 ^ (e - 52)) * 2 ^ (e - 52)

/-- The value `dist` of `consider` (source lines 67-69 and 72-97) for a
`calc_type` whose operations round: every arithmetic operation is followed by
the rounding `fl`.  With `fl = id` this is `consider_dist`. -/
def consider_dist_fl (fl : ℚ → ℚ) (first last p : Point) : ℚ :=
  let v_x := fl (last.x - first.x)
  let v_y := fl (last.y - first.y)
  let c2 := fl (fl (v_x * v_x) + fl (v_y * v_y))
  let w_x := fl (p.x - first.x)
  let w_y := fl (p.y - first.y)
  let c1 := fl (fl (w_x * v_x) + fl (w_y * v_y))
  if c1 ≤ 0 then
    let dx := fl (p.x - first.x)
    let dy := fl (p.y - first.y)
    fl (fl (dx * dx) + fl (dy * dy))
  else if c2 ≤ c1 then
    let dx := fl (p.x - last.x)
    let dy := fl (p.y - last.y)
    fl (fl (dx * dx) + fl (dy * dy))
  else
    let b := fl (c1 / c2)
    let p_x := fl (first.x + fl (b * v_x))
    let p_y := fl (first.y + fl (b * v_y))
    let dx := fl (p.x - p_x)
    let dy := fl (p.y - p_y)
    fl (fl (dx * dx) + fl (dy * dy))

/-- The scan loop of `consider` (source lines 70-103) with the rounding `fl`;
the loop itself is that of `scan`. -/
def scan_fl (fl : ℚ → ℚ) (v : List douglas_peucker_point) (first last : Point) :
    Nat → Nat → ℚ × Option Nat → Option (ℚ × Option Nat)
  | 0, _, st => some st
  | n + 1, it, (md, candidate) =>
    match v[it]? with
    | none => none
    | some d =>
      let dist := consider_dist_fl fl first last d.p
      if md < dist then scan_fl fl v first last n (it + 1) (dist, some it)
      else scan_fl fl v first last n (it + 1) (md, candidate)

set_option linter.unusedVariables false in
/-- The function `detail::consider` (source lines 36-114) with the rounding
`fl`; the control flow is that of `consider`. -/
def consider_fl (fl : ℚ → ℚ) (v : List douglas_peucker_point) (b e : Nat) (max_dist : ℚ) :
    Option (List douglas_peucker_point) :=
  if e - b ≤ 2 then some v
  else
    match v[b]?, v[e - 1]? with
    | some first, some last =>
      match h : scan_fl fl v first.p last.p (e - 1 - (b + 1)) (b + 1) (-1, none) with
      | none => none
      | some (md, none) => if max_dist < md then none else some v
      | some (md, some candidate) =>
        if max_dist < md then
          match set_included v candidate with
          | none => none
          | some v1 =>
            match consider_fl fl v1 b (candidate + 1) max_dist with
            | none => none
            | some v2 => consider_fl fl v2 candidate e max_dist
        else some v
    | _, _ => none
termination_by e - b
decreasing_by
  all_goals
    -- the candidate is one of the iterators the scan loop visited
    have key : ∀ (n it : Nat) (st : ℚ × Option Nat) (md0 : ℚ) (c : Nat),
        b < it → (∀ c0, st.2 = some c0 → b < c0 ∧ c0 < it) →
        scan_fl fl v first.p last.p n it st = some (md0, some c) → b < c ∧ c < it + n := by
      intro n
      induction n with
      | zero =>
        intro it st md0 c _ hst hs
        simp only [scan_fl, Option.some.injEq] at hs
        have := hst c (by rw [hs])
        omega
      | succ n ih =>
        intro it st md0 c hit hst hs
        obtain ⟨md1, cand1⟩ := st
        simp only [scan_fl] at hs
        cases hv : v[it]? with
        | none => simp [hv] at hs
        | some d =>
          simp only [hv] at hs
          split at hs
          · have := ih (it + 1) _ md0 c (by omega)
              (by intro c0 hc0; simp at hc0; omega) hs
            omega
          · have := ih (it + 1) _ md0 c (by omega)
              (by intro c0 hc0; have := hst c0 hc0; omega) hs
            omega
    have hc := key _ _ _ md candidate (by omega) (by intro c0 hc0; cases hc0) h
    omega

/-- The selection phase of `douglas_peucker` (source lines 123-137) with the
rounding `fl`. -/
def select_fl (fl : ℚ → ℚ) (range : List Point) (max_distance : ℚ) :
    Option (List douglas_peucker_point) :=
  let ref_candidates := range.map douglas_peucker_point.ofPoint
  match set_included ref_candidates 0 with
  | none => none
  | some v0 =>
    match set_included v0 (v0.length - 1) with
    | none => none
    | some v1 =>
      let max_sqrd := fl (max_distance * max_distance)
      consider_fl fl v1 0 v1.length max_sqrd

/-- The function `douglas_peucker` (source lines 118-154) with the rounding
`fl`. -/
def douglas_peucker_fl (fl : ℚ → ℚ) (range : List Point) (max_distance : ℚ) :
    Option (List Point) :=
  match select_fl fl range max_distance with
  | none => none
  | some v => some (emit v)

/-! ## The scan loop, one call of `consider`, and induction along its recursion -/

theorem consider_dist_nonneg (first last p : Point) : 0 ≤ consider_dist first last p := by
  unfold consider_dist
  simp only
  split_ifs <;> exact add_nonneg (mul_self_nonneg _) (mul_self_nonneg _)

theorem scan_spec (v : List douglas_peucker_point) (first last : Point) :
    ∀ (n it : Nat) (md0 : ℚ) (cand0 : Option Nat), it + n ≤ v.length →
      ∃ md cand, scan v first last n it (md0, cand0) = some (md, cand) ∧
        md0 ≤ md ∧
        (∀ i, it ≤ i → i < it + n → consider_dist first last (pointAt v i) ≤ md) ∧
        ((md = md0 ∧ cand = cand0) ∨
          ∃ c, cand = some c ∧ it ≤ c ∧ c < it + n ∧
            consider_dist first last (pointAt v c) = md ∧ md0 < md ∧
            ∀ i, it ≤ i → i < c → consider_dist first last (pointAt v i) < md) := by
  intro n
  induction n with
  | zero =>
    intro it md0 cand0 _
    exact ⟨md0, cand0, rfl, le_refl _, by intro i h1 h2; omega, Or.inl ⟨rfl, rfl⟩⟩
  | succ n ih =>
    intro it md0 cand0 hlen
    have hit : it < v.length := by omega
    have hp : pointAt v it = v[it].p := by simp [pointAt, List.getElem?_eq_getElem hit]
    simp only [scan, List.getElem?_eq_getElem hit]
    by_cases hlt : md0 < consider_dist first last v[it].p
    · simp only [hlt, if_true]
      obtain ⟨md, cand, hs, hle, hall, hcase⟩ :=
        ih (it + 1) (consider_dist first last v[it].p) (some it) (by omega)
      refine ⟨md, cand, hs, le_trans (le_of_lt hlt) hle, ?_, Or.inr ?_⟩
      · intro i h1 h2
        rcases Nat.eq_or_lt_of_le h1 with h | h
        · subst h; rw [hp]; exact hle
        · exact hall i h (by omega)
      · rcases hcase with ⟨h1, h2⟩ | ⟨c, h1, h2, h3, h4, h5, h6⟩
        · refine ⟨it, h2, le_refl _, by omega, by rw [hp, h1], by rw [h1]; exact hlt, ?_⟩
          intro i h1 h2; omega
        · refine ⟨c, h1, by omega, by omega, h4, lt_trans hlt h5, ?_⟩
          intro i hi1 hi2
          rcases Nat.eq_or_lt_of_le hi1 with h | h
          · subst h; rw [hp]; exact h5
          · exact h6 i h hi2
    · simp only [hlt, if_false]
      obtain ⟨md, cand, hs, hle, hall, hcase⟩ := ih (it + 1) md0 cand0 (by omega)
      have hd : consider_dist first last (pointAt v it) ≤ md0 := by
        rw [hp]; exact not_lt.mp hlt
      refine ⟨md, cand, hs, hle, ?_, ?_⟩
      · intro i h1 h2
        rcases Nat.eq_or_lt_of_le h1 with h | h
        · subst h; exact le_trans hd hle
        · exact hall i h (by omega)
      · rcases hcase with ⟨h1, h2⟩ | ⟨c, h1, h2, h3, h4, h5, h6⟩
        · exact Or.inl ⟨h1, h2⟩
        · refine Or.inr ⟨c, h1, by omega, by omega, h4, h5, ?_⟩
          intro i hi1 hi2
          rcases Nat.eq_or_lt_of_le hi1 with h | h
          · subst h; exact lt_of_le_of_lt hd h5
          · exact h6 i h hi2

theorem scan_isSplit (v : List douglas_peucker_point) (b e : Nat)
    (hsize : 2 < e - b) (hlen : e ≤ v.length) :
    ∃ md c, scan v (pointAt v b) (pointAt v (e - 1)) (e - 1 - (b + 1)) (b + 1) (-1, none)
        = some (md, some c) ∧ IsSplit v b (e - 1) md c := by
  obtain ⟨md, cand, hs, hle, hall, hcase⟩ :=
    scan_spec v (pointAt v b) (pointAt v (e - 1)) (e - 1 - (b + 1)) (b + 1) (-1) none (by omega)
  have h0 : (0 : ℚ) ≤ md :=
    le_trans (consider_dist_nonneg _ _ _) (hall (b + 1) (le_refl _) (by omega))
  rcases hcase with ⟨h1, _⟩ | ⟨c, h1, h2, h3, h4, h5, h6⟩
  · rw [h1] at h0; norm_num at h0
  · subst h1
    refine ⟨md, c, hs, by omega, by omega, h4.symm, ?_, ?_⟩
    · intro i hi1 hi2; exact hall i (by omega) (by omega)
    · intro i hi1 hi2; exact h6 i (by omega) hi2

theorem pointAt_eq (v : List douglas_peucker_point) (i : Nat) (h : i < v.length) :
    pointAt v i = v[i].p := by
  simp [pointAt, List.getElem?_eq_getElem h]

theorem flagAt_eq (v : List douglas_peucker_point) (i : Nat) (h : i < v.length) :
    flagAt v i = v[i].included := by
  simp [flagAt, List.getElem?_eq_getElem h]

theorem set_included_spec (v : List douglas_peucker_point) (i : Nat) (h : i < v.length) :
    ∃ v1, set_included v i = some v1 ∧ v1.length = v.length ∧
      (∀ j, pointAt v1 j = pointAt v j) ∧
      (∀ j, flagAt v1 j = (flagAt v j || decide (j = i))) := by
  refine ⟨v.set i { v[i] with included := true }, ?_, by simp, ?_, ?_⟩
  · simp [set_included, List.getElem?_eq_getElem h]
  · intro j
    by_cases hj : i = j
    · subst hj
      simp [pointAt, List.getElem?_set, h]
    · simp [pointAt, List.getElem?_set, hj]
  · intro j
    by_cases hj : i = j
    · subst hj
      simp [flagAt, List.getElem?_set, h]
    · have hj2 : ¬ j = i := fun h => hj h.symm
      simp [flagAt, List.getElem?_set, hj, hj2]

theorem consider_small (v : List douglas_peucker_point) (b e : Nat) (m : ℚ)
    (hsize : e - b ≤ 2) : consider v b e m = some v := by
  rw [consider]
  simp [hsize]

theorem consider_large (v : List douglas_peucker_point) (b e : Nat) (m : ℚ)
    (hsize : 2 < e - b) (hlen : e ≤ v.length) :
    ∃ md c, IsSplit v b (e - 1) md c ∧
      consider v b e m =
        if m < md then
          (set_included v c).bind fun v1 =>
            (consider v1 b (c + 1) m).bind fun v2 => consider v2 c e m
        else some v := by
  obtain ⟨md, c, hs, hsplit⟩ := scan_isSplit v b e hsize hlen
  refine ⟨md, c, hsplit, ?_⟩
  have hb : b < v.length := by omega
  have hl : e - 1 < v.length := by omega
  rw [pointAt_eq v b hb, pointAt_eq v (e - 1) hl] at hs
  rw [consider]
  simp only [not_le.mpr hsize, if_false, List.getElem?_eq_getElem hb,
    List.getElem?_eq_getElem hl]
  split
  · rename_i h; rw [hs] at h; cases h
  · rename_i h; rw [hs] at h; cases h
  · rename_i md1 c1 h
    rw [hs] at h
    simp only [Option.some.injEq, Prod.mk.injEq] at h
    obtain ⟨h1, h2⟩ := h
    subst h1 h2
    split_ifs
    · cases set_included v c with
      | none => rfl
      | some v1 =>
        simp only [Option.bind]
        cases consider v1 b (c + 1) m <;> rfl
    · rfl

/-- Induction along the recursion of `consider`: on a range inside the vector
the call returns, the result has the length of the argument, and a relation
between argument and result holds as soon as it holds in the three ways a call
can end. -/
theorem consider_induction (m : ℚ)
    (P : List douglas_peucker_point → Nat → Nat → List douglas_peucker_point → Prop)
    (small : ∀ v b e, e - b ≤ 2 → P v b e v)
    (stop : ∀ v b e md c, 2 < e - b → e ≤ v.length → IsSplit v b (e - 1) md c →
      ¬ m < md → P v b e v)
    (split : ∀ v b e md c v1 v2 v3, 2 < e - b → e ≤ v.length →
      IsSplit v b (e - 1) md c → m < md → set_included v c = some v1 →
      v1.length = v.length → v2.length = v.length →
      consider v1 b (c + 1) m = some v2 → consider v2 c e m = some v3 →
      P v1 b (c + 1) v2 → P v2 c e v3 → P v b e v3) :
    ∀ (v : List douglas_peucker_point) (b e : Nat), e ≤ v.length →
      ∃ v3, consider v b e m = some v3 ∧ v3.length = v.length ∧ P v b e v3 := by
  have key : ∀ (k : Nat) (v : List douglas_peucker_point) (b e : Nat), e - b ≤ k →
      e ≤ v.length →
      ∃ v3, consider v b e m = some v3 ∧ v3.length = v.length ∧ P v b e v3 := by
    intro k
    induction k with
    | zero =>
      intro v b e hk _
      exact ⟨v, consider_small v b e m (by omega), rfl, small v b e (by omega)⟩
    | succ k ih =>
      intro v b e hk hlen
      by_cases hsize : e - b ≤ 2
      · exact ⟨v, consider_small v b e m hsize, rfl, small v b e hsize⟩
      · have hsize2 : 2 < e - b := by omega
        obtain ⟨md, c, hsplit, heq⟩ := consider_large v b e m hsize2 hlen
        by_cases hm : m < md
        · have hbc : b < c := hsplit.1
          have hcl : c < e - 1 := hsplit.2.1
          obtain ⟨v1, h1, hl1, -⟩ := set_included_spec v c (by omega)
          obtain ⟨v2, h2, hl2, hp2⟩ := ih v1 b (c + 1) (by omega) (by omega)
          obtain ⟨v3, h3, hl3, hp3⟩ := ih v2 c e (by omega) (by omega)
          refine ⟨v3, ?_, by omega, ?_⟩
          · rw [heq, if_pos hm, h1, Option.bind, h2, Option.bind, h3]
          · exact split v b e md c v1 v2 v3 hsize2 hlen hsplit hm h1 hl1
              (by omega) h2 h3 hp2 hp3
        · refine ⟨v, ?_, rfl, stop v b e md c hsize2 hlen hsplit hm⟩
          rw [heq, if_neg hm]
  intro v b e hlen
  exact key (e - b) v b e (le_refl _) hlen

theorem consider_frame_aux (m : ℚ) (v : List douglas_peucker_point) (b e : Nat)
    (hlen : e ≤ v.length) :
    ∃ v3, consider v b e m = some v3 ∧ v3.length = v.length ∧ Frame v b e v3 := by
  apply consider_induction m Frame
  · intro v b e _
    exact ⟨fun _ => rfl, fun _ _ => rfl, fun _ h => h⟩
  · intro v b e md c _ _ _ _
    exact ⟨fun _ => rfl, fun _ _ => rfl, fun _ h => h⟩
  · intro v b e md c v1 v2 v3 _ hlen hsplit _ h1 _ _ _ _ hf2 hf3
    obtain ⟨hbc, hcl, -⟩ := hsplit
    obtain ⟨w, hw, -, hwp, hwf⟩ := set_included_spec v c (by omega)
    rw [h1] at hw
    cases hw
    obtain ⟨p2, f2, m2⟩ := hf2
    obtain ⟨p3, f3, m3⟩ := hf3
    refine ⟨?_, ?_, ?_⟩
    · intro j; rw [p3, p2, hwp]
    · intro j hj
      rw [f3 j (by omega), f2 j (by omega), hwf]
      have : ¬ j = c := by omega
      simp [this]
    · intro j hj
      apply m3; apply m2; rw [hwf, hj]; rfl
  · exact hlen

/-- A call of `consider` on a range inside the vector returns. -/
theorem consider_total (m : ℚ) (v : List douglas_peucker_point) (b e : Nat)
    (hlen : e ≤ v.length) : ∃ v3, consider v b e m = some v3 := by
  obtain ⟨v3, h, -⟩ := consider_frame_aux m v b e hlen
  exact ⟨v3, h⟩

theorem consider_length {m : ℚ} {v v3 : List douglas_peucker_point} {b e : Nat}
    (hlen : e ≤ v.length) (h : consider v b e m = some v3) : v3.length = v.length := by
  obtain ⟨w, hw, hl, -⟩ := consider_frame_aux m v b e hlen
  rw [h] at hw; cases hw; exact hl

theorem consider_frame {m : ℚ} {v v3 : List douglas_peucker_point} {b e : Nat}
    (hlen : e ≤ v.length) (h : consider v b e m = some v3) : Frame v b e v3 := by
  obtain ⟨w, hw, -, hf⟩ := consider_frame_aux m v b e hlen
  rw [h] at hw; cases hw; exact hf

theorem emit_eq_filter (v : List douglas_peucker_point) :
    emit v = (v.filter (fun d => d.included)).map (fun d => d.p) := by
  induction v with
  | nil => rfl
  | cons d rest ih =>
    by_cases h : d.included = true
    · simp [emit, h, ih]
    · simp [emit, h, ih]

theorem emit_append (v w : List douglas_peucker_point) : emit (v ++ w) = emit v ++ emit w := by
  simp [emit_eq_filter]

theorem pointAt_append_left (v w : List douglas_peucker_point) (i : Nat) (h : i < v.length) :
    pointAt (v ++ w) i = pointAt v i := by
  simp [pointAt, List.getElem?_append_left h]

theorem flagAt_append_left (v w : List douglas_peucker_point) (i : Nat) (h : i < v.length) :
    flagAt (v ++ w) i = flagAt v i := by
  simp [flagAt, List.getElem?_append_left h]

theorem emit_eq_kept (v : List douglas_peucker_point) :
    emit v = (kept_indices v).map (pointAt v) := by
  induction v using List.reverseRecOn with
  | nil => rfl
  | append_singleton v d ih =>
    have h1 : (List.range v.length).filter (fun i => flagAt (v ++ [d]) i)
        = (List.range v.length).filter (fun i => flagAt v i) := by
      apply List.filter_congr
      intro i hi
      rw [flagAt_append_left v [d] i (List.mem_range.mp hi)]
    have h2 : ((List.range v.length).filter (fun i => flagAt v i)).map (pointAt (v ++ [d]))
        = ((List.range v.length).filter (fun i => flagAt v i)).map (pointAt v) := by
      apply List.map_congr_left
      intro i hi
      exact pointAt_append_left v [d] i (List.mem_range.mp (List.mem_filter.mp hi).1)
    have h3 : flagAt (v ++ [d]) v.length = d.included := by simp [flagAt]
    have h4 : pointAt (v ++ [d]) v.length = d.p := by simp [pointAt]
    rw [emit_append, ih]
    simp only [kept_indices, List.length_append, List.length_singleton, List.range_succ,
      List.filter_append, List.map_append, h1, h2]
    congr 1
    by_cases hd : d.included = true
    · simp [emit, List.filter, h3, h4, hd]
    · simp [emit, List.filter, h3, hd]

theorem kept_indices_sorted (v : List douglas_peucker_point) :
    (kept_indices v).Pairwise (· < ·) :=
  List.Pairwise.sublist (List.filter_sublist _) (List.pairwise_lt_range _)

theorem mem_kept_indices (v : List douglas_peucker_point) (i : Nat) :
    i ∈ kept_indices v ↔ i < v.length ∧ flagAt v i = true := by
  simp [kept_indices, List.mem_filter]

theorem flagAt_lt_length (v : List douglas_peucker_point) (i : Nat) (h : flagAt v i = true) :
    i < v.length := by
  by_contra hc
  have : v[i]? = none := List.getElem?_eq_none (by omega)
  simp [flagAt, this] at h

theorem map_p_eq_of_pointAt (v w : List douglas_peucker_point) (hl : v.length = w.length)
    (hp : ∀ j, pointAt v j = pointAt w j) :
    v.map (fun d => d.p) = w.map (fun d => d.p) := by
  apply List.ext_getElem (by simpa using hl)
  intro i h1 h2
  simp only [List.length_map] at h1 h2
  have := hp i
  rw [pointAt_eq v i h1, pointAt_eq w i h2] at this
  simpa using this

theorem pointAt_map_ofPoint (pts : List Point) (i : Nat) (h : i < pts.length) :
    pointAt (pts.map douglas_peucker_point.ofPoint) i = pts[i] := by
  simp [pointAt, List.getElem?_eq_getElem h, douglas_peucker_point.ofPoint]

theorem flagAt_map_ofPoint (pts : List Point) (i : Nat) :
    flagAt (pts.map douglas_peucker_point.ofPoint) i = false := by
  unfold flagAt
  cases h : (pts.map douglas_peucker_point.ofPoint)[i]? with
  | none => rfl
  | some d =>
    simp only [List.getElem?_map, Option.map_eq_some'] at h
    obtain ⟨a, _, ha⟩ := h
    simp [← ha, douglas_peucker_point.ofPoint]

/-- The state `douglas_peucker` hands to `consider`, for a non-empty input; it
does not depend on the tolerance. -/
theorem select_start_all (pts : List Point) (hne : pts ≠ []) :
    ∃ v1, (∀ t, select pts t = consider v1 0 v1.length (t * t)) ∧
      v1.length = pts.length ∧ v1.map (fun d => d.p) = pts ∧
      (∀ j, flagAt v1 j = (decide (j = 0) || decide (j = pts.length - 1))) := by
  have hpos : 0 < pts.length := List.length_pos.mpr hne
  obtain ⟨v0, h0, hl0, hp0, hf0⟩ :=
    set_included_spec (pts.map douglas_peucker_point.ofPoint) 0 (by simpa using hpos)
  obtain ⟨v1, h1, hl1, hp1, hf1⟩ := set_included_spec v0 (v0.length - 1) (by
    rw [hl0]; simp; omega)
  simp only [List.length_map] at hl0
  refine ⟨v1, ?_, by omega, ?_, ?_⟩
  · intro t
    simp only [select, h0, h1]
  · have := map_p_eq_of_pointAt v1 (pts.map douglas_peucker_point.ofPoint)
      (by simp; omega) (by intro j; rw [hp1, hp0])
    rw [this]
    simp [List.map_map, Function.comp_def, douglas_peucker_point.ofPoint]
  · intro j
    rw [hf1, hf0, flagAt_map_ofPoint, hl0]
    simp

theorem select_start (pts : List Point) (t : ℚ) (hne : pts ≠ []) :
    ∃ v1, select pts t = consider v1 0 v1.length (t * t) ∧ v1.length = pts.length ∧
      v1.map (fun d => d.p) = pts ∧
      (∀ j, flagAt v1 j = (decide (j = 0) || decide (j = pts.length - 1))) := by
  obtain ⟨v1, hs, hl, hp, hf⟩ := select_start_all pts hne
  exact ⟨v1, hs t, hl, hp, hf⟩

/-- The run of `douglas_peucker` on a non-empty input: the selection returns a
vector over the same points, the flags of both ends are set, and the output is
the points at the kept indices. -/
theorem select_spec (pts : List Point) (t : ℚ) (hne : pts ≠ []) :
    ∃ v, select pts t = some v ∧ douglas_peucker pts t = some (emit v) ∧
      v.length = pts.length ∧ v.map (fun d => d.p) = pts ∧
      flagAt v 0 = true ∧ flagAt v (pts.length - 1) = true := by
  obtain ⟨v1, hs, hl, hp, hf⟩ := select_start pts t hne
  obtain ⟨v, hv, hlv, hfr⟩ := consider_frame_aux (t * t) v1 0 v1.length (le_refl _)
  rw [← hs] at hv
  refine ⟨v, hv, by simp [douglas_peucker, hv], by omega, ?_, ?_, ?_⟩
  · rw [← hp]
    exact map_p_eq_of_pointAt v v1 hlv hfr.1
  · apply hfr.2.2; rw [hf]; simp
  · apply hfr.2.2; rw [hf]; simp

theorem distAt_congr {v w : List douglas_peucker_point} (h : ∀ j, pointAt v j = pointAt w j)
    (a c i : Nat) : distAt v a c i = distAt w a c i := by
  simp only [distAt, h]

theorem emit_all (v : List douglas_peucker_point)
    (h : ∀ i, i < v.length → flagAt v i = true) : emit v = v.map (fun d => d.p) := by
  rw [emit_eq_filter]
  congr 1
  rw [List.filter_eq_self]
  intro d hd
  obtain ⟨i, hi, rfl⟩ := List.mem_iff_getElem.mp hd
  rw [← flagAt_eq v i hi]
  exact h i hi

theorem pointAt_of_map (v : List douglas_peucker_point) (pts : List Point)
    (h : v.map (fun d => d.p) = pts) (j : Nat) (hj : j < pts.length) :
    pts[j]? = some (pointAt v j) := by
  subst h
  simp only [List.length_map] at hj
  simp [pointAt, List.getElem?_eq_getElem hj]

/-- The error bound along the recursion: after a call on a range whose first
and last element are flagged and whose interior is not, every interior element still
unflagged sits between two flagged elements with nothing flagged between them,
within the threshold of the segment joining them. -/
theorem consider_bound (m : ℚ) (v : List douglas_peucker_point) (b e : Nat)
    (hlen : e ≤ v.length) :
    ∃ v3, consider v b e m = some v3 ∧ v3.length = v.length ∧
      (flagAt v b = true → flagAt v (e - 1) = true →
        (∀ j, b < j → j < e - 1 → flagAt v j = false) →
        ∀ i, b < i → i < e - 1 → flagAt v3 i = false →
          ∃ a c, b ≤ a ∧ a < i ∧ i < c ∧ c ≤ e - 1 ∧
            flagAt v3 a = true ∧ flagAt v3 c = true ∧
            (∀ j, a < j → j < c → flagAt v3 j = false) ∧ distAt v3 a c i ≤ m) := by
  apply consider_induction m (fun v b e v3 =>
      flagAt v b = true → flagAt v (e - 1) = true →
        (∀ j, b < j → j < e - 1 → flagAt v j = false) →
        ∀ i, b < i → i < e - 1 → flagAt v3 i = false →
          ∃ a c, b ≤ a ∧ a < i ∧ i < c ∧ c ≤ e - 1 ∧
            flagAt v3 a = true ∧ flagAt v3 c = true ∧
            (∀ j, a < j → j < c → flagAt v3 j = false) ∧ distAt v3 a c i ≤ m)
  · intro v b e hsize _ _ _ i h1 h2 _
    omega
  · intro v b e md c _ _ hsplit hm hb hl hint i h1 h2 _
    refine ⟨b, e - 1, le_refl _, h1, h2, le_refl _, hb, hl, hint, ?_⟩
    exact le_trans (hsplit.2.2.2.1 i h1 h2) (not_lt.mp hm)
  · intro v b e md c v1 v2 v3 hsize hlen hsplit hm h1 hl1 hl2 hc2 hc3 ih2 ih3
      hb hl hint i hi1 hi2 hfi
    have hbc : b < c := hsplit.1
    have hcl : c < e - 1 := hsplit.2.1
    obtain ⟨w, hw, -, hwp, hwf⟩ := set_included_spec v c (by omega)
    rw [h1] at hw
    cases hw
    obtain ⟨p2, f2, m2⟩ := consider_frame (by omega) hc2
    obtain ⟨p3, f3, m3⟩ := consider_frame (by omega) hc3
    have hc1 : flagAt v1 c = true := by rw [hwf]; simp
    have hv1 : ∀ j, j ≠ c → flagAt v1 j = flagAt v j := by
      intro j hj; rw [hwf]; simp [hj]
    rcases Nat.lt_trichotomy i c with hlt | heq | hgt
    · -- the element lies in the left range
      have hfi2 : flagAt v2 i = false := by rw [← f3 i (by omega)]; exact hfi
      obtain ⟨a, c2, ha1, ha2, ha3, ha4, ha5, ha6, ha7, ha8⟩ :=
        ih2 (by rw [hv1 b (by omega)]; exact hb) (by simpa using hc1)
          (by intro j hj1 hj2
              simp only [Nat.add_sub_cancel] at hj2
              rw [hv1 j (by omega)]; exact hint j hj1 (by omega))
          i hi1 (by simpa using hlt) hfi2
      simp only [Nat.add_sub_cancel] at ha4
      refine ⟨a, c2, ha1, ha2, ha3, by omega, ?_, ?_, ?_, ?_⟩
      · rw [f3 a (by omega)]; exact ha5
      · rw [f3 c2 (by omega)]; exact ha6
      · intro j hj1 hj2; rw [f3 j (by omega)]; exact ha7 j hj1 hj2
      · rw [distAt_congr p3]; exact ha8
    · subst heq
      rw [m3 i (m2 i hc1)] at hfi
      cases hfi
    · -- the element lies in the right range
      obtain ⟨a, c2, ha1, ha2, ha3, ha4, ha5, ha6, ha7, ha8⟩ :=
        ih3 (m2 c hc1)
          (by rw [f2 (e - 1) (by omega), hv1 (e - 1) (by omega)]; exact hl)
          (by intro j hj1 hj2
              rw [f2 j (by omega), hv1 j (by omega)]; exact hint j (by omega) hj2)
          i hgt hi2 hfi
      exact ⟨a, c2, by omega, ha2, ha3, ha4, ha5, ha6, ha7, ha8⟩
  · exact hlen

theorem select_bound (pts : List Point) (t : ℚ) (hne : pts ≠ []) :
    ∃ v, select pts t = some v ∧ douglas_peucker pts t = some (emit v) ∧
      v.map (fun d => d.p) = pts ∧
      ∀ i, i < pts.length → flagAt v i = false →
        ∃ a c, a < i ∧ i < c ∧ c < pts.length ∧
          flagAt v a = true ∧ flagAt v c = true ∧
          (∀ j, a < j → j < c → flagAt v j = false) ∧
          distAt v a c i ≤ t * t := by
  obtain ⟨v1, hs, hl, hp, hf⟩ := select_start pts t hne
  have hpos : 0 < pts.length := List.length_pos.mpr hne
  obtain ⟨v, hv, hlv, hb⟩ := consider_bound (t * t) v1 0 v1.length (le_refl _)
  have hfr := consider_frame (le_refl _) hv
  rw [← hs] at hv
  refine ⟨v, hv, by simp [douglas_peucker, hv], ?_, ?_⟩
  · rw [← hp]; exact map_p_eq_of_pointAt v v1 hlv hfr.1
  · intro i hi hfi
    have h0 : flagAt v 0 = true := by apply hfr.2.2; rw [hf]; simp
    have hn : flagAt v (pts.length - 1) = true := by apply hfr.2.2; rw [hf]; simp
    have hi0 : 0 < i := by
      rcases Nat.eq_zero_or_pos i with h | h
      · subst h; rw [h0] at hfi; cases hfi
      · exact h
    have hin : i < v1.length - 1 := by
      rw [hl]
      rcases Nat.lt_or_ge i (pts.length - 1) with h | h
      · exact h
      · have : i = pts.length - 1 := by omega
        subst this; rw [hn] at hfi; cases hfi
    obtain ⟨a, c, -, ha2, ha3, ha4, ha5, ha6, ha7, ha8⟩ :=
      hb (by rw [hf]; simp) (by rw [hf, hl]; simp)
        (by intro j hj1 hj2
            rw [hf]
            have h1 : ¬ j = 0 := by omega
            have h2 : ¬ j = pts.length - 1 := by omega
            simp [h1, h2])
        i hi0 hin hfi
    exact ⟨a, c, ha2, ha3, by omega, ha5, ha6, ha7, ha8⟩

theorem consider_dist_eq_zero (a b p : Point) (h : consider_dist a b p = 0) :
    ∃ s : ℚ, 0 ≤ s ∧ s ≤ 1 ∧ p.x = a.x + s * (b.x - a.x) ∧ p.y = a.y + s * (b.y - a.y) := by
  unfold consider_dist at h
  simp only at h
  split_ifs at h with h1 h2
  · obtain ⟨hx, hy⟩ := (mul_self_add_mul_self_eq_zero).mp h
    exact ⟨0, le_refl _, zero_le_one, by linarith, by linarith⟩
  · obtain ⟨hx, hy⟩ := (mul_self_add_mul_self_eq_zero).mp h
    exact ⟨1, zero_le_one, le_refl _, by linarith, by linarith⟩
  · obtain ⟨hx, hy⟩ := (mul_self_add_mul_self_eq_zero).mp h
    have hc1 := not_le.mp h1
    have hc2 := not_le.mp h2
    have hpos := lt_trans hc1 hc2
    refine ⟨_, le_of_lt (div_pos hc1 hpos), ?_, by linarith, by linarith⟩
    rw [div_le_one hpos]
    exact le_of_lt hc2

theorem emit_head (v : List douglas_peucker_point) (h : flagAt v 0 = true) :
    (emit v).head? = (v.map (fun d => d.p)).head? := by
  cases v with
  | nil => rfl
  | cons d rest =>
    have hd : d.included = true := by simpa [flagAt] using h
    simp [emit, hd]

theorem emit_getLast (v : List douglas_peucker_point) (h : flagAt v (v.length - 1) = true) :
    (emit v).getLast? = (v.map (fun d => d.p)).getLast? := by
  rcases List.eq_nil_or_concat v with hv | ⟨init, d, hv⟩
  · subst hv; rfl
  · rw [List.concat_eq_append] at hv
    subst hv
    have hd : d.included = true := by simpa [flagAt] using h
    rw [emit_append]
    simp [emit, hd]

theorem kept_indices_length_ge (v : List douglas_peucker_point) (h2 : 2 ≤ v.length)
    (h0 : flagAt v 0 = true) (hn : flagAt v (v.length - 1) = true) :
    2 ≤ (kept_indices v).length := by
  have hnd : (kept_indices v).Nodup :=
    (kept_indices_sorted v).imp (fun h => ne_of_lt h)
  have hsub : ({0, v.length - 1} : Finset Nat) ⊆ (kept_indices v).toFinset := by
    intro x hx
    rw [List.mem_toFinset, mem_kept_indices]
    simp only [Finset.mem_insert, Finset.mem_singleton] at hx
    rcases hx with hx | hx
    · subst hx; exact ⟨by omega, h0⟩
    · subst hx; exact ⟨by omega, hn⟩
  have hcard := Finset.card_le_card hsub
  rw [List.toFinset_card_of_nodup hnd, Finset.card_pair (by omega)] at hcard
  exact hcard

theorem emit_length_le (v : List douglas_peucker_point) : (emit v).length ≤ v.length := by
  rw [emit_eq_filter, List.length_map]
  exact List.length_filter_le _ _

theorem sorted_eq_of_mem_iff (l1 l2 : List Nat) (h1 : l1.Pairwise (· < ·))
    (h2 : l2.Pairwise (· < ·)) (h : ∀ i, i ∈ l1 ↔ i ∈ l2) : l1 = l2 := by
  have n1 : l1.Nodup := h1.imp (fun h => ne_of_lt h)
  have n2 : l2.Nodup := h2.imp (fun h => ne_of_lt h)
  have hperm : l1.Perm l2 := (List.perm_ext_iff_of_nodup n1 n2).mpr h
  exact List.eq_of_perm_of_sorted hperm h1 h2

theorem kept_indices_ends (v : List douglas_peucker_point) (h2 : 2 ≤ v.length)
    (hf : ∀ j, flagAt v j = (decide (j = 0) || decide (j = v.length - 1))) :
    kept_indices v = [0, v.length - 1] := by
  apply sorted_eq_of_mem_iff _ _ (kept_indices_sorted v)
  · simp; omega
  · intro i
    rw [mem_kept_indices, hf]
    simp
    omega

/-- One step of `consider` on a range of at least three elements, from the
result of its scan loop. -/
theorem consider_step (v : List douglas_peucker_point) (b e : Nat) (m md : ℚ) (c : Nat)
    (first last : douglas_peucker_point)
    (hsize : 2 < e - b) (hb : v[b]? = some first) (hl : v[e - 1]? = some last)
    (hs : scan v first.p last.p (e - 1 - (b + 1)) (b + 1) (-1, none) = some (md, some c)) :
    consider v b e m =
      if m < md then
        (set_included v c).bind fun v1 =>
          (consider v1 b (c + 1) m).bind fun v2 => consider v2 c e m
      else some v := by
  rw [consider]
  simp only [not_le.mpr hsize, if_false, hb, hl]
  split
  · rename_i h; rw [hs] at h; cases h
  · rename_i h; rw [hs] at h; cases h
  · rename_i md1 c1 h
    rw [hs] at h
    simp only [Option.some.injEq, Prod.mk.injEq] at h
    obtain ⟨h1, h2⟩ := h
    subst h1 h2
    split_ifs
    · cases set_included v c with
      | none => rfl
      | some v1 =>
        simp only [Option.bind]
        cases consider v1 b (c + 1) m <;> rfl
    · rfl

theorem isSplit_congr {v w : List douglas_peucker_point} (h : ∀ j, pointAt v j = pointAt w j)
    {b l : Nat} {md : ℚ} {c : Nat} (hs : IsSplit v b l md c) : IsSplit w b l md c := by
  obtain ⟨h1, h2, h3, h4, h5⟩ := hs
  refine ⟨h1, h2, ?_, ?_, ?_⟩
  · rw [h3, distAt_congr h]
  · intro i hi1 hi2; rw [← distAt_congr h]; exact h4 i hi1 hi2
  · intro i hi1 hi2; rw [← distAt_congr h]; exact h5 i hi1 hi2

/-- The scan has one result: the first interior index of maximal distance. -/
theorem isSplit_unique {v : List douglas_peucker_point} {b l : Nat} {md md2 : ℚ} {c c2 : Nat}
    (h : IsSplit v b l md c) (h2 : IsSplit v b l md2 c2) : md = md2 ∧ c = c2 := by
  obtain ⟨a1, a2, a3, a4, a5⟩ := h
  obtain ⟨b1, b2, b3, b4, b5⟩ := h2
  have hc : c = c2 := by
    rcases Nat.lt_trichotomy c c2 with hlt | heq | hgt
    · have h1 := b5 c a1 hlt
      have h2 := a4 c2 b1 b2
      rw [← a3] at h1; rw [← b3] at h2
      exact absurd (lt_of_lt_of_le h1 h2) (lt_irrefl _)
    · exact heq
    · have h1 := a5 c2 b1 hgt
      have h2 := b4 c a1 a2
      rw [← b3] at h1; rw [← a3] at h2
      exact absurd (lt_of_lt_of_le h1 h2) (lt_irrefl _)
  subst hc
  exact ⟨by rw [a3, b3], rfl⟩

/-- The flags of a run with a larger threshold are among the flags of a run
with a smaller threshold over the same points. -/
theorem consider_nested (m2 : ℚ) (v : List douglas_peucker_point) (b e : Nat)
    (hlen : e ≤ v.length) :
    ∃ v3, consider v b e m2 = some v3 ∧ v3.length = v.length ∧
      ∀ (m1 : ℚ) (w w3 : List douglas_peucker_point), m1 ≤ m2 → w.length = v.length →
        (∀ j, pointAt w j = pointAt v j) →
        (∀ j, flagAt v j = true → flagAt w j = true) →
        consider w b e m1 = some w3 → ∀ j, flagAt v3 j = true → flagAt w3 j = true := by
  apply consider_induction m2 (fun v b e v3 =>
      ∀ (m1 : ℚ) (w w3 : List douglas_peucker_point), m1 ≤ m2 → w.length = v.length →
        (∀ j, pointAt w j = pointAt v j) →
        (∀ j, flagAt v j = true → flagAt w j = true) →
        consider w b e m1 = some w3 → ∀ j, flagAt v3 j = true → flagAt w3 j = true)
  · intro v b e hsize m1 w w3 _ _ _ hfl hw j hj
    rw [consider_small w b e m1 hsize] at hw
    cases hw
    exact hfl j hj
  · intro v b e md c _ hlen _ _ m1 w w3 _ hwl _ hfl hw j hj
    exact (consider_frame (by omega) hw).2.2 j (hfl j hj)
  · intro v b e md c v1 v2 v3 hsize hlen hsplit hm h1 hl1 hl2 hc2 hc3 ih2 ih3
      m1 w w3 hm1 hwl hwp hfl hw j hj
    have hbc : b < c := hsplit.1
    have hcl : c < e - 1 := hsplit.2.1
    obtain ⟨md2, c2, hsplit2, heq⟩ := consider_large w b e m1 hsize (by omega)
    obtain ⟨hmd, hcc⟩ := isSplit_unique (isSplit_congr hwp hsplit2) hsplit
    subst hmd hcc
    rw [heq, if_pos (lt_of_le_of_lt hm1 hm)] at hw
    obtain ⟨x1, hx1, -, hxp, hxf⟩ := set_included_spec v c2 (by omega)
    rw [h1] at hx1; cases hx1
    obtain ⟨w1, hw1, hwl1, hwp1, hwf1⟩ := set_included_spec w c2 (by omega)
    rw [hw1, Option.bind] at hw
    obtain ⟨w2, hw2, hw3⟩ := Option.bind_eq_some.mp hw
    have hwl2 := consider_length (by omega) hw2
    have fr2 := consider_frame (by omega : c2 + 1 ≤ v1.length) hc2
    have frw2 := consider_frame (by omega : c2 + 1 ≤ w1.length) hw2
    have step2 : ∀ j, flagAt v2 j = true → flagAt w2 j = true :=
      ih2 m1 w1 w2 hm1 (by omega) (by intro j; rw [hwp1, hxp, hwp])
        (by intro j hj
            rw [hxf] at hj; rw [hwf1]
            rcases Bool.or_eq_true _ _ ▸ hj with h | h
            · rw [hfl j h]; rfl
            · rw [h]; simp)
        hw2
    exact ih3 m1 w2 w3 hm1 (by omega)
      (by intro j; rw [frw2.1, fr2.1, hwp1, hxp, hwp]) step2 hw3 j hj
  · exact hlen

/-- The selections of one non-empty input with two tolerances `0 ≤ t1 ≤ t2`:
every position flagged with `t2` is flagged with `t1`. -/
theorem select_nested (pts : List Point) (t1 t2 : ℚ) (hne : pts ≠ [])
    (h0 : 0 ≤ t1) (h12 : t1 ≤ t2) :
    ∃ v1 v2, select pts t1 = some v1 ∧ select pts t2 = some v2 ∧
      douglas_peucker pts t1 = some (emit v1) ∧ douglas_peucker pts t2 = some (emit v2) ∧
      v1.map (fun d => d.p) = pts ∧ v2.map (fun d => d.p) = pts ∧
      ∀ j, flagAt v2 j = true → flagAt v1 j = true := by
  obtain ⟨v0, hs, hl, hp, hf⟩ := select_start_all pts hne
  obtain ⟨v2, hv2, hl2, hn⟩ := consider_nested (t2 * t2) v0 0 v0.length (le_refl _)
  obtain ⟨v1, hv1⟩ := consider_total (t1 * t1) v0 0 v0.length (le_refl _)
  have hl1 := consider_length (le_refl _) hv1
  have hsq : t1 * t1 ≤ t2 * t2 := mul_le_mul h12 h12 h0 (le_trans h0 h12)
  have hfl := hn (t1 * t1) v0 v1 hsq rfl (fun _ => rfl) (fun _ h => h) hv1
  have hp1 := map_p_eq_of_pointAt v1 v0 hl1 (consider_frame (le_refl _) hv1).1
  have hp2 := map_p_eq_of_pointAt v2 v0 hl2 (consider_frame (le_refl _) hv2).1
  rw [← hs] at hv1 hv2
  exact ⟨v1, v2, hv1, hv2, by simp [douglas_peucker, hv1], by simp [douglas_peucker, hv2],
    by rw [hp1, hp], by rw [hp2, hp], hfl⟩

/-- Running `consider` on the kept elements of a finished range.  The range
`[b, e)` of `v` has been processed with result `v3`; the range `[b2, e2)` of `w`
holds, in order, the points of the two ends and of the flagged interior
elements of `v3` (`f` maps each element of the second range to its origin).
Then `consider` flags every interior element of `[b2, e2)`. -/
theorem consider_rerun (m : ℚ) (v : List douglas_peucker_point) (b e : Nat)
    (hlen : e ≤ v.length) :
    ∃ v3, consider v b e m = some v3 ∧ v3.length = v.length ∧
      ∀ (w : List douglas_peucker_point) (b2 e2 : Nat) (f : Nat → Nat),
        e2 ≤ w.length → f b2 = b → f (e2 - 1) = e - 1 →
        (∀ j k, b2 ≤ j → j < k → k ≤ e2 - 1 → f j < f k) →
        (∀ j, b2 ≤ j → j ≤ e2 - 1 → pointAt w j = pointAt v (f j)) →
        (∀ j, b2 < j → j < e2 - 1 → flagAt v3 (f j) = true) →
        (∀ i, b < i → i < e - 1 → flagAt v3 i = true → ∃ j, b2 < j ∧ j < e2 - 1 ∧ f j = i) →
        (∀ i, b < i → i < e - 1 → flagAt v i = false) →
        ∃ w3, consider w b2 e2 m = some w3 ∧
          ∀ j, b2 < j → j < e2 - 1 → flagAt w3 j = true := by
  apply consider_induction m (fun v b e v3 =>
      ∀ (w : List douglas_peucker_point) (b2 e2 : Nat) (f : Nat → Nat),
        e2 ≤ w.length → f b2 = b → f (e2 - 1) = e - 1 →
        (∀ j k, b2 ≤ j → j < k → k ≤ e2 - 1 → f j < f k) →
        (∀ j, b2 ≤ j → j ≤ e2 - 1 → pointAt w j = pointAt v (f j)) →
        (∀ j, b2 < j → j < e2 - 1 → flagAt v3 (f j) = true) →
        (∀ i, b < i → i < e - 1 → flagAt v3 i = true → ∃ j, b2 < j ∧ j < e2 - 1 ∧ f j = i) →
        (∀ i, b < i → i < e - 1 → flagAt v i = false) →
        ∃ w3, consider w b2 e2 m = some w3 ∧
          ∀ j, b2 < j → j < e2 - 1 → flagAt w3 j = true)
  · -- the range has no interior element
    intro v b e hsize w b2 e2 f _ hfb hfe hmono _ _ _ _
    have hs2 : e2 - b2 ≤ 2 := by
      by_contra hc
      have h1 := hmono b2 (b2 + 1) (le_refl _) (by omega) (by omega)
      have h2 := hmono (b2 + 1) (e2 - 1) (by omega) (by omega) (le_refl _)
      omega
    exact ⟨w, consider_small w b2 e2 m hs2, by intro j h1 h2; omega⟩
  · -- the range was left as it is: nothing of its interior is flagged
    intro v b e md c _ _ _ _ w b2 e2 f _ hfb hfe hmono _ himg _ hint
    have hs2 : e2 - b2 ≤ 2 := by
      by_contra hc
      have h1 := hmono b2 (b2 + 1) (le_refl _) (by omega) (by omega)
      have h2 := hmono (b2 + 1) (e2 - 1) (by omega) (by omega) (le_refl _)
      have h3 := himg (b2 + 1) (by omega) (by omega)
      rw [hint (f (b2 + 1)) (by omega) (by omega)] at h3
      cases h3
    exact ⟨w, consider_small w b2 e2 m hs2, by intro j h1 h2; omega⟩
  · -- the range was split at `c`
    intro v b e md c v1 v2 v3 hsize hlen hsplit hm h1 hl1 hl2 hc2 hc3 ih2 ih3
      w b2 e2 f hwlen hfb hfe hmono hpt himg hsurj hint
    have hbc : b < c := hsplit.1
    have hcl : c < e - 1 := hsplit.2.1
    obtain ⟨x1, hx1, -, hxp, hxf⟩ := set_included_spec v c (by omega)
    rw [h1] at hx1; cases hx1
    have fr2 := consider_frame (by omega : c + 1 ≤ v1.length) hc2
    have fr3 := consider_frame (by omega : e ≤ v2.length) hc3
    have hfc3 : flagAt v3 c = true := by
      apply fr3.2.2; apply fr2.2.2; rw [hxf]; simp
    obtain ⟨c2, hc2a, hc2b, hfc⟩ := hsurj c hbc hcl hfc3
    -- the scan of the second range finds the element that came from `c`
    have hdist : ∀ j, b2 ≤ j → j ≤ e2 - 1 →
        distAt w b2 (e2 - 1) j = distAt v b (e - 1) (f j) := by
      intro j hj1 hj2
      simp only [distAt]
      rw [hpt b2 (le_refl _) (by omega), hpt (e2 - 1) (by omega) (le_refl _), hpt j hj1 hj2,
        hfb, hfe]
    have hinside : ∀ j, b2 < j → j < e2 - 1 → b < f j ∧ f j < e - 1 := by
      intro j hj1 hj2
      have h1 := hmono b2 j (le_refl _) hj1 (by omega)
      have h2 := hmono j (e2 - 1) (by omega) hj2 (le_refl _)
      omega
    have hsplitw : IsSplit w b2 (e2 - 1) md c2 := by
      refine ⟨hc2a, hc2b, ?_, ?_, ?_⟩
      · rw [hdist c2 (by omega) (by omega), hfc]; exact hsplit.2.2.1
      · intro j hj1 hj2
        rw [hdist j (by omega) (by omega)]
        exact hsplit.2.2.2.1 (f j) (hinside j hj1 hj2).1 (hinside j hj1 hj2).2
      · intro j hj1 hj2
        rw [hdist j (by omega) (by omega)]
        have := hmono j c2 (by omega) hj2 (by omega)
        exact hsplit.2.2.2.2 (f j) (hinside j hj1 (by omega)).1 (by omega)
    obtain ⟨md2, c3, hsplit2, heq⟩ := consider_large w b2 e2 m (by omega) hwlen
    obtain ⟨hmd, hcc⟩ := isSplit_unique hsplit2 hsplitw
    subst hmd hcc
    obtain ⟨w1, hw1, hwl1, hwp1, hwf1⟩ := set_included_spec w c3 (by omega)
    -- the left half
    obtain ⟨w2, hw2, hflag2⟩ := ih2 w1 b2 (c3 + 1) f (by omega) hfb
      (by simpa using hfc)
      (by intro j k hj hjk hk; exact hmono j k hj hjk (by simp at hk; omega))
      (by intro j hj1 hj2
          simp only [Nat.add_sub_cancel] at hj2
          rw [hwp1, hxp]; exact hpt j hj1 (by omega))
      (by intro j hj1 hj2
          simp only [Nat.add_sub_cancel] at hj2
          have := hmono j c3 (by omega) hj2 (by omega)
          rw [← fr3.2.1 (f j) (by omega)]
          exact himg j hj1 (by omega))
      (by intro i hi1 hi2 hfi
          simp only [Nat.add_sub_cancel] at hi2
          obtain ⟨j, hj1, hj2, hj3⟩ := hsurj i hi1 (by omega) (fr3.2.2 i hfi)
          refine ⟨j, hj1, ?_, hj3⟩
          simp only [Nat.add_sub_cancel]
          by_contra hcon
          rcases Nat.eq_or_lt_of_le (not_lt.mp hcon) with h | h
          · rw [← h, hfc] at hj3; omega
          · have := hmono c3 j (by omega) h (by omega); omega)
      (by intro i hi1 hi2
          simp only [Nat.add_sub_cancel] at hi2
          rw [hxf, hint i hi1 (by omega)]
          have : ¬ i = c := by omega
          simp [this])
    have hwl2 := consider_length (by omega : c3 + 1 ≤ w1.length) hw2
    have frw2 := consider_frame (by omega : c3 + 1 ≤ w1.length) hw2
    -- the right half
    obtain ⟨w3, hw3, hflag3⟩ := ih3 w2 c3 e2 f (by omega) hfc hfe
      (by intro j k hj hjk hk; exact hmono j k (by omega) hjk hk)
      (by intro j hj1 hj2
          rw [frw2.1, hwp1, fr2.1, hxp]; exact hpt j (by omega) hj2)
      (by intro j hj1 hj2; exact himg j (by omega) hj2)
      (by intro i hi1 hi2 hfi
          obtain ⟨j, hj1, hj2, hj3⟩ := hsurj i (by omega) hi2 hfi
          refine ⟨j, ?_, hj2, hj3⟩
          by_contra hcon
          rcases Nat.eq_or_lt_of_le (not_lt.mp hcon) with h | h
          · rw [h, hfc] at hj3; omega
          · have := hmono j c3 (by omega) h (by omega); omega)
      (by intro i hi1 hi2
          rw [fr2.2.1 i (by omega), hxf, hint i (by omega) hi2]
          have : ¬ i = c := by omega
          simp [this])
    have frw3 := consider_frame (by omega : e2 ≤ w2.length) hw3
    refine ⟨w3, ?_, ?_⟩
    · rw [heq, if_pos hm, hw1, Option.bind, hw2, Option.bind, hw3]
    · intro j hj1 hj2
      rcases Nat.lt_trichotomy j c3 with h | h | h
      · rw [frw3.2.1 j (by omega)]
        exact hflag2 j hj1 (by simpa using h)
      · subst h
        apply frw3.2.2; apply frw2.2.2; rw [hwf1]; simp
      · exact hflag3 j h hj2
  · exact hlen

theorem kept_indices_first (v : List douglas_peucker_point) (h0 : flagAt v 0 = true) :
    (kept_indices v)[0]? = some 0 := by
  have hmem : 0 ∈ kept_indices v :=
    (mem_kept_indices v 0).mpr ⟨flagAt_lt_length v 0 h0, h0⟩
  obtain ⟨j, hj, hj0⟩ := List.mem_iff_getElem.mp hmem
  have hpos : 0 < (kept_indices v).length := by omega
  rw [List.getElem?_eq_getElem hpos]
  rcases Nat.eq_zero_or_pos j with h | h
  · subst h; rw [hj0]
  · have h1 : (kept_indices v)[0] < (kept_indices v)[j] :=
      List.pairwise_iff_getElem.mp (kept_indices_sorted v) 0 j hpos hj h
    omega

theorem kept_indices_last (v : List douglas_peucker_point)
    (hn : flagAt v (v.length - 1) = true) :
    (kept_indices v)[(kept_indices v).length - 1]? = some (v.length - 1) := by
  have hmem : v.length - 1 ∈ kept_indices v :=
    (mem_kept_indices v _).mpr ⟨flagAt_lt_length v _ hn, hn⟩
  obtain ⟨j, hj, hj0⟩ := List.mem_iff_getElem.mp hmem
  have hlast : (kept_indices v).length - 1 < (kept_indices v).length := by omega
  rw [List.getElem?_eq_getElem hlast]
  rcases Nat.eq_or_lt_of_le (Nat.le_sub_one_of_lt hj) with h | h
  · subst h; rw [hj0]
  · have h1 : (kept_indices v)[j] < (kept_indices v)[(kept_indices v).length - 1] :=
      List.pairwise_iff_getElem.mp (kept_indices_sorted v) j _ hj hlast h
    have h2 := ((mem_kept_indices v _).mp (List.getElem_mem hlast)).1
    omega

theorem kept_at_eq (v : List douglas_peucker_point) (j : Nat)
    (hj : j < (kept_indices v).length) : kept_at v j = (kept_indices v)[j] := by
  unfold kept_at
  rw [List.getElem?_eq_getElem hj]
  rfl

/-! ## The distance to the segment, the top call, and two worked selections -/

theorem consider_dist_le_sq_dist_at (a b p : Point) (s : ℚ) (h0 : 0 ≤ s) (h1 : s ≤ 1) :
    consider_dist a b p ≤ sq_dist_at a b p s := by
  unfold consider_dist sq_dist_at
  simp only
  have hc2 : 0 ≤ (b.x - a.x) * (b.x - a.x) + (b.y - a.y) * (b.y - a.y) :=
    add_nonneg (mul_self_nonneg _) (mul_self_nonneg _)
  split_ifs with hc1 hc21
  · nlinarith [mul_nonneg h0 (neg_nonneg.mpr hc1), mul_nonneg (mul_nonneg h0 h0) hc2]
  · have hs : 0 ≤ 1 - s := by linarith
    nlinarith [mul_nonneg hs (sub_nonneg.mpr hc21), mul_nonneg (mul_nonneg hs h0) hc2,
      mul_nonneg hs hc2]
  · have hc1pos := not_le.mp hc1
    have hpos : 0 < (b.x - a.x) * (b.x - a.x) + (b.y - a.y) * (b.y - a.y) :=
      lt_trans hc1pos (not_le.mp hc21)
    rw [← sub_nonneg]
    have key : ∀ (c1 c2 wx wy vx vy : ℚ), c2 ≠ 0 → c2 = vx * vx + vy * vy →
        c1 = wx * vx + wy * vy →
        (wx - s * vx) * (wx - s * vx) + (wy - s * vy) * (wy - s * vy) -
          ((wx - c1 / c2 * vx) * (wx - c1 / c2 * vx) + (wy - c1 / c2 * vy) * (wy - c1 / c2 * vy))
          = c2 * ((s - c1 / c2) * (s - c1 / c2)) := by
      intro c1 c2 wx wy vx vy hne h2 h1
      field_simp
      rw [h1, h2]
      ring
    have := key ((p.x - a.x) * (b.x - a.x) + (p.y - a.y) * (b.y - a.y))
      ((b.x - a.x) * (b.x - a.x) + (b.y - a.y) * (b.y - a.y))
      (p.x - a.x) (p.y - a.y) (b.x - a.x) (b.y - a.y) (ne_of_gt hpos) rfl rfl
    have hnn : 0 ≤ ((b.x - a.x) * (b.x - a.x) + (b.y - a.y) * (b.y - a.y)) *
        ((s - ((p.x - a.x) * (b.x - a.x) + (p.y - a.y) * (b.y - a.y)) /
            ((b.x - a.x) * (b.x - a.x) + (b.y - a.y) * (b.y - a.y))) *
          (s - ((p.x - a.x) * (b.x - a.x) + (p.y - a.y) * (b.y - a.y)) /
            ((b.x - a.x) * (b.x - a.x) + (b.y - a.y) * (b.y - a.y)))) :=
      mul_nonneg hc2 (mul_self_nonneg _)
    rw [← this] at hnn
    linarith

theorem consider_dist_attained (a b p : Point) :
    ∃ s : ℚ, 0 ≤ s ∧ s ≤ 1 ∧ consider_dist a b p = sq_dist_at a b p s := by
  unfold consider_dist sq_dist_at
  simp only
  split_ifs with hc1 hc21
  · exact ⟨0, le_refl _, zero_le_one, by ring⟩
  · exact ⟨1, zero_le_one, le_refl _, by ring⟩
  · have hc1pos := not_le.mp hc1
    have hlt := not_le.mp hc21
    have hpos := lt_trans hc1pos hlt
    exact ⟨_, le_of_lt (div_pos hc1pos hpos), (div_le_one hpos).mpr (le_of_lt hlt), rfl⟩

theorem getElem?_eq_of_point_flag (v w : List douglas_peucker_point)
    (hl : v.length = w.length) (j : Nat) (hp : pointAt v j = pointAt w j)
    (hf : flagAt v j = flagAt w j) : v[j]? = w[j]? := by
  by_cases hj : j < v.length
  · have hjw : j < w.length := by omega
    rw [pointAt_eq v j hj, pointAt_eq w j hjw] at hp
    rw [flagAt_eq v j hj, flagAt_eq w j hjw] at hf
    rw [List.getElem?_eq_getElem hj, List.getElem?_eq_getElem hjw]
    congr 1
    cases hv : v[j] with
    | mk p1 f1 =>
      cases hw : w[j] with
      | mk p2 f2 =>
        rw [hv, hw] at hp hf
        simp only at hp hf
        rw [hp, hf]
  · rw [List.getElem?_eq_none (by omega), List.getElem?_eq_none (by omega)]

/-- The selection on the input (0,0), (10,0), (1,0) with tolerance 0: the
interior point (10,0) projects beyond the last point (1,0) and is at squared
distance 81 from it, so it is flagged. -/
theorem select_three_on_a_line :
    select [⟨0, 0⟩, ⟨10, 0⟩, ⟨1, 0⟩] 0
      = some [⟨⟨0, 0⟩, true⟩, ⟨⟨10, 0⟩, true⟩, ⟨⟨1, 0⟩, true⟩] := by
  simp only [select, set_included, douglas_peucker_point.ofPoint, List.map, List.length,
    List.getElem?_cons_zero, List.set]
  norm_num
  rw [consider_step _ 0 3 0 81 1 ⟨⟨0, 0⟩, true⟩ ⟨⟨1, 0⟩, true⟩ (by decide) rfl rfl
    (by norm_num [scan, consider_dist])]
  norm_num [set_included]
  rw [consider_small _ 0 2 0 (by decide)]
  norm_num
  rw [consider_small _ 1 3 0 (by decide)]

/-! ## The rounding model: its exact instance and the rounding of `double` -/

theorem consider_dist_fl_id (first last p : Point) :
    consider_dist_fl id first last p = consider_dist first last p := rfl

theorem scan_fl_id (v : List douglas_peucker_point) (first last : Point) :
    ∀ (n it : Nat) (st : ℚ × Option Nat),
      scan_fl id v first last n it st = scan v first last n it st := by
  intro n
  induction n with
  | zero => intro it st; rfl
  | succ n ih =>
    intro it st
    obtain ⟨md, cand⟩ := st
    simp only [scan_fl, scan, consider_dist_fl_id, ih]

theorem consider_fl_id (v : List douglas_peucker_point) (b e : Nat) (m : ℚ) :
    consider_fl id v b e m = consider v b e m := by
  have key : ∀ (k : Nat) (v : List douglas_peucker_point) (b e : Nat), e - b ≤ k →
      consider_fl id v b e m = consider v b e m := by
    intro k
    induction k with
    | zero =>
      intro v b e hk
      rw [consider_fl, consider]
      simp [show e - b ≤ 2 by omega]
    | succ k ih =>
      intro v b e hk
      by_cases hsize : e - b ≤ 2
      · rw [consider_fl, consider]
        simp [hsize]
      · cases hb : v[b]? with
        | none =>
          rw [consider_fl, consider]
          simp only [hsize, if_false, hb]
        | some first =>
          cases hl : v[e - 1]? with
          | none =>
            rw [consider_fl, consider]
            simp only [hsize, if_false, hb, hl]
          | some last =>
            have hlen : e ≤ v.length := by
              have := (List.getElem?_eq_some_iff.mp hl).1
              omega
            obtain ⟨md, c, hs, hsplit⟩ := scan_isSplit v b e (by omega) hlen
            have hpb : pointAt v b = first.p := by simp [pointAt, hb]
            have hpl : pointAt v (e - 1) = last.p := by simp [pointAt, hl]
            rw [hpb, hpl] at hs
            have hbc := hsplit.1
            have hcl := hsplit.2.1
            rw [consider_step v b e m md c first last (by omega) hb hl hs, consider_fl]
            simp only [hsize, if_false, hb, hl]
            split
            · rename_i h1; rw [scan_fl_id, hs] at h1; cases h1
            · rename_i h1; rw [scan_fl_id, hs] at h1; cases h1
            · rename_i md1 c1 h1
              rw [scan_fl_id, hs] at h1
              simp only [Option.some.injEq, Prod.mk.injEq] at h1
              obtain ⟨e1, e2⟩ := h1
              subst e1 e2
              split_ifs
              · cases hset : set_included v c with
                | none => rfl
                | some v1 =>
                  simp only [Option.bind]
                  rw [ih v1 b (c + 1) (by omega)]
                  cases consider v1 b (c + 1) m with
                  | none => rfl
                  | some v2 =>
                    simp only []
                    exact ih v2 c e (by omega)
              · rfl
  exact key (e - b) v b e (le_refl _)

/-- With the identity as rounding the rounding model is the exact one. -/
theorem douglas_peucker_fl_id (range : List Point) (max_distance : ℚ) :
    douglas_peucker_fl id range max_distance = douglas_peucker range max_distance := by
  have hsel : select_fl id range max_distance = select range max_distance := by
    unfold select_fl select
    simp only [consider_fl_id, id]
  unfold douglas_peucker_fl douglas_peucker
  rw [hsel]

theorem round_half_even_intCast (n : ℤ) : round_half_even (n : ℚ) = n := by
  unfold round_half_even
  simp

theorem round_half_even_small (x : ℚ) (h0 : 0 ≤ x) (h1 : x < 1 / 2) :
    round_half_even x = 0 := by
  have hf : ⌊x⌋ = 0 := Int.floor_eq_zero_iff.mpr ⟨h0, by linarith⟩
  unfold round_half_even
  simp only [hf, Int.cast_zero, sub_zero, h1, if_true]

theorem double_round_zero : double_round 0 = 0 := by
  simp [double_round]

/-- A power of two from `2 ^ (-1074)` on is a `double` (below the overflow
threshold, which is not modelled). -/
theorem double_round_two_zpow (k : ℤ) (hk : -1074 ≤ k) :
    double_round ((2 : ℚ) ^ k) = (2 : ℚ) ^ k := by
  have hpos : (0 : ℚ) < 2 ^ k := zpow_pos (by norm_num) k
  have hlog : Int.log 2 |(2 : ℚ) ^ k| = k := by
    rw [abs_of_pos hpos]
    exact_mod_cast Int.log_zpow (R := ℚ) (b := 2) (by norm_num) k
  unfold double_round
  simp only [ne_of_gt hpos, if_false, hlog]
  have h2 : (2 : ℚ) ≠ 0 := by norm_num
  -- the quotient by the spacing is a non-negative power of two, an integer
  have hq : ∀ e : ℤ, e - 52 ≤ k →
      (round_half_even ((2 : ℚ) ^ k / 2 ^ (e - 52)) : ℚ) * 2 ^ (e - 52) = 2 ^ k := by
    intro e he
    obtain ⟨j, hj⟩ := Int.eq_ofNat_of_zero_le (show 0 ≤ k - (e - 52) by omega)
    have hdiv : (2 : ℚ) ^ k / 2 ^ (e - 52) = ((2 ^ j : ℤ) : ℚ) := by
      rw [← zpow_sub₀ h2, hj, zpow_natCast]
      push_cast
      rfl
    rw [hdiv, round_half_even_intCast, ← hdiv, div_mul_cancel₀]
    exact zpow_ne_zero _ h2
  exact hq _ (by have := max_def k (-1022); split_ifs at this <;> omega)

/-- A power of two below `2 ^ (-1075)` underflows to 0. -/
theorem double_round_underflow (k : ℤ) (hk : k < -1075) :
    double_round ((2 : ℚ) ^ k) = 0 := by
  have hpos : (0 : ℚ) < 2 ^ k := zpow_pos (by norm_num) k
  have hlog : Int.log 2 |(2 : ℚ) ^ k| = k := by
    rw [abs_of_pos hpos]
    exact_mod_cast Int.log_zpow (R := ℚ) (b := 2) (by norm_num) k
  unfold double_round
  simp only [ne_of_gt hpos, if_false, hlog]
  have hmax : max k (-1022) = -1022 := max_eq_right (by omega)
  rw [hmax]
  have h2 : (2 : ℚ) ≠ 0 := by norm_num
  have hsmall : (2 : ℚ) ^ k / 2 ^ ((-1022 : ℤ) - 52) < 1 / 2 := by
    rw [← zpow_sub₀ h2]
    have hle : (2 : ℚ) ^ (k - (-1022 - 52)) ≤ 2 ^ (-2 : ℤ) :=
      zpow_le_zpow_right₀ (by norm_num) (by omega)
    have : (2 : ℚ) ^ (-2 : ℤ) < 1 / 2 := by norm_num
    exact lt_of_le_of_lt hle this
  rw [round_half_even_small _ (le_of_lt (div_pos hpos (zpow_pos (by norm_num) _))) hsmall]
  simp

/-- One step of `consider_fl` on a range of at least three elements, from the
result of its scan loop. -/
theorem consider_fl_step (fl : ℚ → ℚ) (v : List douglas_peucker_point) (b e : Nat)
    (m md : ℚ) (c : Nat) (first last : douglas_peucker_point)
    (hsize : 2 < e - b) (hb : v[b]? = some first) (hl : v[e - 1]? = some last)
    (hs : scan_fl fl v first.p last.p (e - 1 - (b + 1)) (b + 1) (-1, none)
      = some (md, some c)) :
    consider_fl fl v b e m =
      if m < md then
        (set_included v c).bind fun v1 =>
          (consider_fl fl v1 b (c + 1) m).bind fun v2 => consider_fl fl v2 c e m
      else some v := by
  rw [consider_fl]
  simp only [not_le.mpr hsize, if_false, hb, hl]
  split
  · rename_i h; rw [hs] at h; cases h
  · rename_i h; rw [hs] at h; cases h
  · rename_i md1 c1 h
    rw [hs] at h
    simp only [Option.some.injEq, Prod.mk.injEq] at h
    obtain ⟨h1, h2⟩ := h
    subst h1 h2
    split_ifs
    · cases set_included v c with
      | none => rfl
      | some v1 =>
        simp only [Option.bind]
        cases consider_fl fl v1 b (c + 1) m <;> rfl
    · rfl

/-- In `double` arithmetic the point `(1, y)` is at computed squared distance 0
from the segment from (0,0) to (2,0) as soon as `y * y` underflows. -/
theorem consider_dist_fl_underflow (y : ℚ) (hy1 : double_round y = y)
    (hy2 : double_round (y * y) = 0) :
    consider_dist_fl double_round ⟨0, 0⟩ ⟨2, 0⟩ ⟨1, y⟩ = 0 := by
  have h0 : double_round 0 = 0 := double_round_zero
  have h1 : double_round 1 = 1 := by
    simpa using double_round_two_zpow 0 (by norm_num)
  have h2 : double_round 2 = 2 := by
    simpa using double_round_two_zpow 1 (by norm_num)
  have h4 : double_round 4 = 4 := by
    have := double_round_two_zpow 2 (by norm_num)
    norm_num at this
    exact this
  have hh : double_round (1 / 2) = 1 / 2 := by
    have := double_round_two_zpow (-1) (by norm_num)
    norm_num at this
    simpa using this
  have e1 : (2 : ℚ) * 2 = 4 := by norm_num
  have e2 : (2 : ℚ) / 4 = 1 / 2 := by norm_num
  have e3 : (1 / 2 : ℚ) * 2 = 1 := by norm_num
  have n1 : ¬ (2 : ℚ) ≤ 0 := by norm_num
  have n2 : ¬ (4 : ℚ) ≤ 2 := by norm_num
  simp only [consider_dist_fl, sub_zero, mul_zero, zero_mul, add_zero, zero_add, one_mul,
    sub_self, h0, h1, h2, h4, hh, hy1, hy2, e1, e2, e3, n1, n2, if_false]

/-- The run of `douglas_peucker` in `double` arithmetic on (0,0), (1,y), (2,0)
with tolerance 0, when `y` is a `double` whose square underflows: the interior
point is dropped. -/
theorem select_fl_underflow (y : ℚ) (hy1 : double_round y = y)
    (hy2 : double_round (y * y) = 0) :
    select_fl double_round [⟨0, 0⟩, ⟨1, y⟩, ⟨2, 0⟩] 0
      = some [⟨⟨0, 0⟩, true⟩, ⟨⟨1, y⟩, false⟩, ⟨⟨2, 0⟩, true⟩] := by
  have hd := consider_dist_fl_underflow y hy1 hy2
  have hs : scan_fl double_round [⟨⟨0, 0⟩, true⟩, ⟨⟨1, y⟩, false⟩, ⟨⟨2, 0⟩, true⟩]
      ⟨0, 0⟩ ⟨2, 0⟩ (3 - 1 - (0 + 1)) (0 + 1) (-1, none) = some (0, some 1) := by
    simp only [scan_fl, Nat.reduceAdd, Nat.reduceSub, List.getElem?_cons_succ,
      List.getElem?_cons_zero, hd]
    norm_num
  simp only [select_fl, set_included, douglas_peucker_point.ofPoint, List.map, List.length,
    List.getElem?_cons_zero, List.set, mul_zero, double_round_zero]
  norm_num
  rw [consider_fl_step double_round _ 0 3 0 0 1 ⟨⟨0, 0⟩, true⟩ ⟨⟨2, 0⟩, true⟩ (by decide) rfl
    rfl hs]
  simp

/-! ## The properties of `douglas_peucker` -/

/-- C1 (error bound).  For a non-empty input and any tolerance `t`, the
selection returns flags `v` over the input points, the output is the points
whose flag is set, and every input position `i` whose flag is not set (a point
that is not emitted) has a nearest emitted position `a` before it and a nearest
emitted position `c` after it such that the squared distance `consider`
computes from the point at `i` to the segment joining the points at `a` and `c`
is at most `t * t`.  The bound holds for every `t`, in particular for
`0 ≤ t`. -/
theorem C1_error_bound (pts : List Point) (t : ℚ) (hne : pts ≠ []) :
    ∃ v, select pts t = some v ∧ douglas_peucker pts t = some (emit v) ∧
      v.map (fun d => d.p) = pts ∧
      ∀ i, i < pts.length → flagAt v i = false →
        ∃ a c pa pc p, a < i ∧ i < c ∧ c < pts.length ∧
          flagAt v a = true ∧ flagAt v c = true ∧
          (∀ j, a < j → j < c → flagAt v j = false) ∧
          pts[a]? = some pa ∧ pts[c]? = some pc ∧ pts[i]? = some p ∧
          consider_dist pa pc p ≤ t * t := by
  obtain ⟨v, hv, hd, hp, hb⟩ := select_bound pts t hne
  refine ⟨v, hv, hd, hp, ?_⟩
  intro i hi hfi
  obtain ⟨a, c, h1, h2, h3, h4, h5, h6, h7⟩ := hb i hi hfi
  exact ⟨a, c, pointAt v a, pointAt v c, pointAt v i, h1, h2, h3, h4, h5, h6,
    pointAt_of_map v pts hp a (by omega), pointAt_of_map v pts hp c h3,
    pointAt_of_map v pts hp i hi, h7⟩

/-- Witness of C1 on the input (0,0), (1,1), (2,2) with tolerance 1. -/
theorem C1_error_bound_witness :
    ([⟨0, 0⟩, ⟨1, 1⟩, ⟨2, 2⟩] : List Point) ≠ [] ∧
    ∃ v, select [⟨0, 0⟩, ⟨1, 1⟩, ⟨2, 2⟩] 1 = some v ∧
      douglas_peucker [⟨0, 0⟩, ⟨1, 1⟩, ⟨2, 2⟩] 1 = some (emit v) ∧
      v.map (fun d => d.p) = [⟨0, 0⟩, ⟨1, 1⟩, ⟨2, 2⟩] ∧
      ∀ i, i < ([⟨0, 0⟩, ⟨1, 1⟩, ⟨2, 2⟩] : List Point).length → flagAt v i = false →
        ∃ a c pa pc p, a < i ∧ i < c ∧ c < ([⟨0, 0⟩, ⟨1, 1⟩, ⟨2, 2⟩] : List Point).length ∧
          flagAt v a = true ∧ flagAt v c = true ∧
          (∀ j, a < j → j < c → flagAt v j = false) ∧
          ([⟨0, 0⟩, ⟨1, 1⟩, ⟨2, 2⟩] : List Point)[a]? = some pa ∧
          ([⟨0, 0⟩, ⟨1, 1⟩, ⟨2, 2⟩] : List Point)[c]? = some pc ∧
          ([⟨0, 0⟩, ⟨1, 1⟩, ⟨2, 2⟩] : List Point)[i]? = some p ∧
          consider_dist pa pc p ≤ 1 * 1 :=
  ⟨by simp, C1_error_bound [⟨0, 0⟩, ⟨1, 1⟩, ⟨2, 2⟩] 1 (by simp)⟩

/-- C2 (subsequence).  For a non-empty input and any tolerance the output is
the points of the candidates whose flag is set after the selection, in order;
it is a sublist of the input, and there is a strictly increasing list of input
indices, exactly the indices whose flag is set, whose points in that order are
the output. -/
theorem C2_subsequence (pts : List Point) (t : ℚ) (hne : pts ≠ []) :
    ∃ v out, select pts t = some v ∧ douglas_peucker pts t = some out ∧
      v.map (fun d => d.p) = pts ∧
      out = (v.filter (fun d => d.included)).map (fun d => d.p) ∧
      out.Sublist pts ∧
      ∃ idx : List Nat, idx.Pairwise (· < ·) ∧
        (∀ i, i ∈ idx ↔ i < pts.length ∧ flagAt v i = true) ∧
        out.map some = idx.map (fun i => pts[i]?) := by
  obtain ⟨v, hv, hd, hl, hp, -⟩ := select_spec pts t hne
  refine ⟨v, emit v, hv, hd, hp, emit_eq_filter v, ?_, kept_indices v,
    kept_indices_sorted v, ?_, ?_⟩
  · rw [emit_eq_filter, ← hp]
    exact List.Sublist.map _ (List.filter_sublist _)
  · intro i; rw [mem_kept_indices, hl]
  · rw [emit_eq_kept, List.map_map]
    apply List.map_congr_left
    intro i hi
    have := (mem_kept_indices v i).mp hi
    simp only [Function.comp]
    exact (pointAt_of_map v pts hp i (by omega)).symm

/-- Witness of C2 on the input (0,0), (1,1), (2,2) with tolerance 1. -/
theorem C2_subsequence_witness :
    ([⟨0, 0⟩, ⟨1, 1⟩, ⟨2, 2⟩] : List Point) ≠ [] ∧
    ∃ v out, select [⟨0, 0⟩, ⟨1, 1⟩, ⟨2, 2⟩] 1 = some v ∧
      douglas_peucker [⟨0, 0⟩, ⟨1, 1⟩, ⟨2, 2⟩] 1 = some out ∧
      v.map (fun d => d.p) = [⟨0, 0⟩, ⟨1, 1⟩, ⟨2, 2⟩] ∧
      out = (v.filter (fun d => d.included)).map (fun d => d.p) ∧
      out.Sublist [⟨0, 0⟩, ⟨1, 1⟩, ⟨2, 2⟩] ∧
      ∃ idx : List Nat, idx.Pairwise (· < ·) ∧
        (∀ i, i ∈ idx ↔ i < ([⟨0, 0⟩, ⟨1, 1⟩, ⟨2, 2⟩] : List Point).length ∧
          flagAt v i = true) ∧
        out.map some = idx.map (fun i => ([⟨0, 0⟩, ⟨1, 1⟩, ⟨2, 2⟩] : List Point)[i]?) :=
  ⟨by simp, C2_subsequence [⟨0, 0⟩, ⟨1, 1⟩, ⟨2, 2⟩] 1 (by simp)⟩

/-- C3 (endpoint preservation).  For a non-empty input and any tolerance
`douglas_peucker` returns an output that is not empty, whose first element is
the first input point and whose last element is the last input point. -/
theorem C3_endpoints (pts : List Point) (t : ℚ) (hne : pts ≠ []) :
    ∃ out, douglas_peucker pts t = some out ∧ out ≠ [] ∧
      out.head? = pts.head? ∧ out.getLast? = pts.getLast? := by
  obtain ⟨v, -, hd, hl, hp, h0, hn⟩ := select_spec pts t hne
  have hh : (emit v).head? = pts.head? := by rw [emit_head v h0, hp]
  refine ⟨emit v, hd, ?_, hh, ?_⟩
  · intro he
    rw [he] at hh
    cases pts with
    | nil => exact hne rfl
    | cons a rest => simp at hh
  · rw [emit_getLast v (by rw [hl]; exact hn), hp]

/-- Witness of C3 on the input (0,0), (1,1), (2,2) with tolerance 1. -/
theorem C3_endpoints_witness :
    ([⟨0, 0⟩, ⟨1, 1⟩, ⟨2, 2⟩] : List Point) ≠ [] ∧
    ∃ out, douglas_peucker [⟨0, 0⟩, ⟨1, 1⟩, ⟨2, 2⟩] 1 = some out ∧ out ≠ [] ∧
      out.head? = ([⟨0, 0⟩, ⟨1, 1⟩, ⟨2, 2⟩] : List Point).head? ∧
      out.getLast? = ([⟨0, 0⟩, ⟨1, 1⟩, ⟨2, 2⟩] : List Point).getLast? :=
  ⟨by simp, C3_endpoints [⟨0, 0⟩, ⟨1, 1⟩, ⟨2, 2⟩] 1 (by simp)⟩

/-- C4 (monotonicity in tolerance).  For a non-empty input and tolerances
`0 ≤ t1 ≤ t2`, `douglas_peucker` emits with `t2` at most as many points as it
emits with `t1`. -/
theorem C4_monotone (pts : List Point) (t1 t2 : ℚ) (hne : pts ≠ [])
    (h0 : 0 ≤ t1) (h12 : t1 ≤ t2) :
    ∃ out1 out2, douglas_peucker pts t1 = some out1 ∧ douglas_peucker pts t2 = some out2 ∧
      out2.length ≤ out1.length := by
  obtain ⟨v1, v2, -, -, hd1, hd2, hp1, hp2, hfl⟩ := select_nested pts t1 t2 hne h0 h12
  refine ⟨emit v1, emit v2, hd1, hd2, ?_⟩
  have hlen : v2.length = v1.length := by
    have h1 := congrArg List.length hp1
    have h2 := congrArg List.length hp2
    simp only [List.length_map] at h1 h2
    omega
  rw [emit_eq_kept, emit_eq_kept, List.length_map, List.length_map]
  unfold kept_indices
  rw [hlen]
  exact (List.monotone_filter_right _ hfl).length_le

/-- Witness of C4 on the input (0,0), (1,1), (2,0) with tolerances 0 and 2. -/
theorem C4_monotone_witness :
    ([⟨0, 0⟩, ⟨1, 1⟩, ⟨2, 0⟩] : List Point) ≠ [] ∧ (0 : ℚ) ≤ 0 ∧ (0 : ℚ) ≤ 2 ∧
    ∃ out1 out2, douglas_peucker [⟨0, 0⟩, ⟨1, 1⟩, ⟨2, 0⟩] 0 = some out1 ∧
      douglas_peucker [⟨0, 0⟩, ⟨1, 1⟩, ⟨2, 0⟩] 2 = some out2 ∧
      out2.length ≤ out1.length :=
  ⟨by simp, le_refl _, by norm_num,
    C4_monotone [⟨0, 0⟩, ⟨1, 1⟩, ⟨2, 0⟩] 0 2 (by simp) (le_refl _) (by norm_num)⟩

/-- C5 (idempotence).  For a non-empty input and any tolerance `t`,
`douglas_peucker` returns an output, and `douglas_peucker` run with the same `t`
on that output returns it unchanged.  The statement needs no sign assumption on
`t`; it holds in particular for `0 ≤ t`. -/
theorem C5_idempotent (pts : List Point) (t : ℚ) (hne : pts ≠ []) :
    ∃ out, douglas_peucker pts t = some out ∧ douglas_peucker out t = some out := by
  obtain ⟨v0, hs, hl, hp, hf⟩ := select_start_all pts hne
  have hpos : 0 < pts.length := List.length_pos.mpr hne
  obtain ⟨v, hv, hlv, hrerun⟩ := consider_rerun (t * t) v0 0 v0.length (le_refl _)
  have fr := consider_frame (le_refl _) hv
  have h0 : flagAt v 0 = true := by apply fr.2.2; rw [hf]; simp
  have hn : flagAt v (v.length - 1) = true := by apply fr.2.2; rw [hf, hlv, hl]; simp
  have hfirst := kept_indices_first v h0
  have hlast := kept_indices_last v hn
  have hsorted : ∀ (i j : Nat) (hi : i < (kept_indices v).length)
      (hj : j < (kept_indices v).length), i < j →
      (kept_indices v)[i] < (kept_indices v)[j] :=
    List.pairwise_iff_getElem.mp (kept_indices_sorted v)
  have hk : 0 < (kept_indices v).length := by
    by_contra hc
    rw [List.getElem?_eq_none (by omega)] at hfirst
    cases hfirst
  have hout : emit v ≠ [] := by
    rw [emit_eq_kept]
    intro hc
    have := congrArg List.length hc
    simp only [List.length_map, List.length_nil] at this
    omega
  have hdp : douglas_peucker pts t = some (emit v) := by
    simp [douglas_peucker, hs t, hv]
  obtain ⟨w0, hws, hwl, hwp, hwf⟩ := select_start_all (emit v) hout
  have hwk : w0.length = (kept_indices v).length := by
    rw [hwl, emit_eq_kept, List.length_map]
  have hfeq := kept_at_eq v
  obtain ⟨w3, hw3, hflags⟩ := hrerun w0 0 w0.length
    (kept_at v) (le_refl _)
    (by unfold kept_at; rw [hfirst]; rfl)
    (by unfold kept_at; rw [hwk, hlast, ← hlv]; rfl)
    (by intro j k _ hjk hk
        rw [hfeq j (by omega), hfeq k (by omega)]
        exact hsorted j k (by omega) (by omega) hjk)
    (by intro j _ hj
        have hj2 : j < (kept_indices v).length := by omega
        have h1 := pointAt_of_map w0 (emit v) hwp j (by omega)
        rw [hfeq j hj2, ← fr.1]
        have h2 : (emit v)[j]? = some (pointAt v (kept_indices v)[j]) := by
          rw [emit_eq_kept, List.getElem?_map, List.getElem?_eq_getElem hj2]
          rfl
        rw [h2] at h1
        exact (Option.some.inj h1).symm)
    (by intro j _ hj
        have hj2 : j < (kept_indices v).length := by omega
        rw [hfeq j hj2]
        exact ((mem_kept_indices v _).mp (List.getElem_mem hj2)).2)
    (by intro i hi1 hi2 hfi
        have hmem : i ∈ kept_indices v :=
          (mem_kept_indices v i).mpr ⟨flagAt_lt_length v i hfi, hfi⟩
        obtain ⟨j, hj, hji⟩ := List.mem_iff_getElem.mp hmem
        refine ⟨j, ?_, ?_, by rw [hfeq j hj, hji]⟩
        · rcases Nat.eq_zero_or_pos j with h | h
          · subst h
            rw [List.getElem?_eq_getElem hj, hji] at hfirst
            have := Option.some.inj hfirst
            omega
          · exact h
        · rw [hwk]
          rcases Nat.eq_or_lt_of_le (Nat.le_sub_one_of_lt hj) with h | h
          · subst h
            rw [List.getElem?_eq_getElem hj, hji] at hlast
            have := Option.some.inj hlast
            omega
          · exact h)
    (by intro i hi1 hi2
        rw [hf]
        have h1 : ¬ i = 0 := by omega
        have h2 : ¬ i = pts.length - 1 := by omega
        simp [h1, h2])
  have frw := consider_frame (le_refl _) hw3
  have hall : ∀ j, j < w3.length → flagAt w3 j = true := by
    intro j hj
    have hwl3 := consider_length (le_refl _) hw3
    by_cases hj0 : j = 0
    · apply frw.2.2; rw [hwf]; simp [hj0]
    · by_cases hjn : j = w0.length - 1
      · apply frw.2.2; rw [hwf, hjn, hwl]; simp
      · exact hflags j (by omega) (by omega)
  refine ⟨emit v, hdp, ?_⟩
  have hsel : select (emit v) t = some w3 := by rw [hws t]; exact hw3
  have hemit : emit w3 = emit v := by
    rw [emit_all w3 hall,
      map_p_eq_of_pointAt w3 w0 (consider_length (le_refl _) hw3) frw.1, hwp]
  simp only [douglas_peucker, hsel, hemit]

/-- Witness of C5 on the input (0,0), (1,1/100), (2,0), (3,10), (4,0) with
tolerance 1. -/
theorem C5_idempotent_witness :
    ([⟨0, 0⟩, ⟨1, 1 / 100⟩, ⟨2, 0⟩, ⟨3, 10⟩, ⟨4, 0⟩] : List Point) ≠ [] ∧
    ∃ out, douglas_peucker [⟨0, 0⟩, ⟨1, 1 / 100⟩, ⟨2, 0⟩, ⟨3, 10⟩, ⟨4, 0⟩] 1 = some out ∧
      douglas_peucker out 1 = some out :=
  ⟨by simp, C5_idempotent [⟨0, 0⟩, ⟨1, 1 / 100⟩, ⟨2, 0⟩, ⟨3, 10⟩, ⟨4, 0⟩] 1 (by simp)⟩

/-- C6 (collapse to endpoints).  For an input of at least two points with first
point `first` and last point `last`, if every interior point is within the
tolerance of the segment from `first` to `last`, measured as `consider` measures
it (squared distance at most `t * t`), then `douglas_peucker` outputs exactly
`first`, `last`.  The statement needs no sign assumption on `t`. -/
theorem C6_collapse (pts : List Point) (t : ℚ) (first last : Point)
    (h2 : 2 ≤ pts.length)
    (hfirst : pts.head? = some first) (hlast : pts.getLast? = some last)
    (hin : ∀ i p, 0 < i → i + 1 < pts.length → pts[i]? = some p →
      consider_dist first last p ≤ t * t) :
    douglas_peucker pts t = some [first, last] := by
  have hne : pts ≠ [] := by
    intro h; subst h; simp at h2
  obtain ⟨v1, hs, hl, hp, hf⟩ := select_start pts t hne
  have hp0 : pointAt v1 0 = first := by
    have h1 := pointAt_of_map v1 pts hp 0 (by omega)
    rw [List.head?_eq_getElem?] at hfirst
    rw [hfirst] at h1
    exact (Option.some.inj h1).symm
  have hpn : pointAt v1 (v1.length - 1) = last := by
    have h1 := pointAt_of_map v1 pts hp (v1.length - 1) (by omega)
    rw [List.getLast?_eq_getElem?, ← hl] at hlast
    rw [hlast] at h1
    exact (Option.some.inj h1).symm
  have hv : select pts t = some v1 := by
    rw [hs]
    by_cases hsize : v1.length - 0 ≤ 2
    · exact consider_small v1 0 v1.length (t * t) hsize
    · obtain ⟨md, c, hsplit, heq⟩ :=
        consider_large v1 0 v1.length (t * t) (by omega) (le_refl _)
      have hmd : ¬ t * t < md := by
        rw [hsplit.2.2.1, distAt, hp0, hpn]
        apply not_lt.mpr
        exact hin c (pointAt v1 c) hsplit.1 (by have := hsplit.2.1; omega)
          (pointAt_of_map v1 pts hp c (by have := hsplit.2.1; omega))
      rw [heq, if_neg hmd]
  have he : emit v1 = [first, last] := by
    rw [emit_eq_kept, kept_indices_ends v1 (by omega) (by rw [hl]; exact hf)]
    simp [hp0, hpn]
  simp [douglas_peucker, hv, he]

/-- Witness of C6: the three collinear points (0,0), (1,1), (2,2) with
tolerance 0.0001 give (0,0), (2,2). -/
theorem C6_collapse_witness :
    douglas_peucker [⟨0, 0⟩, ⟨1, 1⟩, ⟨2, 2⟩] (1 / 10000) = some [⟨0, 0⟩, ⟨2, 2⟩] :=
  C6_collapse [⟨0, 0⟩, ⟨1, 1⟩, ⟨2, 2⟩] (1 / 10000) ⟨0, 0⟩ ⟨2, 2⟩ (by decide) rfl rfl (by
    intro i p h1 h2 hp
    have hi : i = 1 := by simp at h2; omega
    subst hi
    simp at hp
    subst hp
    norm_num [consider_dist])

/-- The selection on the input (0,0), (1,0.01), (2,0), (3,10), (4,0) with
tolerance 1: the top range splits at (3,10) (squared distance 100), the range
from (0,0) to (3,10) splits at (2,0) (squared distance 400/109), the range
from (0,0) to (2,0) keeps nothing (squared distance 1/10000). -/
theorem select_five_points :
    select [⟨0, 0⟩, ⟨1, 1 / 100⟩, ⟨2, 0⟩, ⟨3, 10⟩, ⟨4, 0⟩] 1
      = some [⟨⟨0, 0⟩, true⟩, ⟨⟨1, 1 / 100⟩, false⟩, ⟨⟨2, 0⟩, true⟩, ⟨⟨3, 10⟩, true⟩,
          ⟨⟨4, 0⟩, true⟩] := by
  simp only [select, set_included, douglas_peucker_point.ofPoint, List.map, List.length,
    List.getElem?_cons_zero, List.set]
  norm_num
  rw [consider_step _ 0 5 1 100 3 ⟨⟨0, 0⟩, true⟩ ⟨⟨4, 0⟩, true⟩ (by decide) rfl rfl
    (by norm_num [scan, consider_dist])]
  norm_num [set_included]
  rw [consider_step _ 0 4 1 (400 / 109) 2 ⟨⟨0, 0⟩, true⟩ ⟨⟨3, 10⟩, true⟩ (by decide) rfl rfl
    (by norm_num [scan, consider_dist])]
  norm_num [set_included]
  rw [consider_step _ 0 3 1 (1 / 10000) 1 ⟨⟨0, 0⟩, true⟩ ⟨⟨2, 0⟩, true⟩ (by decide) rfl rfl
    (by norm_num [scan, consider_dist])]
  norm_num
  rw [consider_small _ 2 4 1 (by decide)]
  norm_num
  rw [consider_small _ 3 5 1 (by decide)]

/-- C7, as amended.  For the input (0,0), (1,0.01), (2,0), (3,10), (4,0) and
tolerance 1 the selection flags the positions 0, 2, 3, 4 and `douglas_peucker`
outputs exactly (0,0), (2,0), (3,10), (4,0): after the split at (3,10) the point
(2,0) is at squared distance 400/109, more than 1, from the segment from (0,0)
to (3,10), so it is kept; (1,0.01) is dropped. -/
theorem C7_scenario_amended :
    select [⟨0, 0⟩, ⟨1, 1 / 100⟩, ⟨2, 0⟩, ⟨3, 10⟩, ⟨4, 0⟩] 1
      = some [⟨⟨0, 0⟩, true⟩, ⟨⟨1, 1 / 100⟩, false⟩, ⟨⟨2, 0⟩, true⟩, ⟨⟨3, 10⟩, true⟩,
          ⟨⟨4, 0⟩, true⟩] ∧
    consider_dist ⟨0, 0⟩ ⟨3, 10⟩ ⟨2, 0⟩ = 400 / 109 ∧
    douglas_peucker [⟨0, 0⟩, ⟨1, 1 / 100⟩, ⟨2, 0⟩, ⟨3, 10⟩, ⟨4, 0⟩] 1
      = some [⟨0, 0⟩, ⟨2, 0⟩, ⟨3, 10⟩, ⟨4, 0⟩] := by
  refine ⟨select_five_points, by norm_num [consider_dist], ?_⟩
  rw [douglas_peucker, select_five_points]
  simp [emit]

/-- C7, counterexample.  For the input (0,0), (1,0.01), (2,0), (3,10), (4,0) and
tolerance 1 the output of `douglas_peucker` is not (0,0), (3,10), (4,0). -/
theorem C7_scenario_counterexample :
    douglas_peucker [⟨0, 0⟩, ⟨1, 1 / 100⟩, ⟨2, 0⟩, ⟨3, 10⟩, ⟨4, 0⟩] 1
      ≠ some [⟨0, 0⟩, ⟨3, 10⟩, ⟨4, 0⟩] := by
  rw [douglas_peucker, select_five_points]
  simp [emit]

/-- C8, as amended (exact arithmetic).  For a non-empty input and tolerance 0,
in exact arithmetic, every input position `i` that is not emitted lies between
its nearest emitted positions `a` and `c`, and its point has distance exactly 0
to the segment joining their points: it is collinear with them and lies on that
segment.  Equivalently, a position whose point has nonzero distance to the
chord between the nearest emitted positions around it is emitted. -/
theorem C8_zero_tolerance (pts : List Point) (hne : pts ≠ []) :
    ∃ v, select pts 0 = some v ∧ douglas_peucker pts 0 = some (emit v) ∧
      v.map (fun d => d.p) = pts ∧
      (∀ i, i < pts.length → flagAt v i = false →
        ∃ a c pa pc p, a < i ∧ i < c ∧ c < pts.length ∧
          flagAt v a = true ∧ flagAt v c = true ∧
          (∀ j, a < j → j < c → flagAt v j = false) ∧
          pts[a]? = some pa ∧ pts[c]? = some pc ∧ pts[i]? = some p ∧
          consider_dist pa pc p = 0 ∧
          (pc.x - pa.x) * (p.y - pa.y) - (pc.y - pa.y) * (p.x - pa.x) = 0 ∧
          ∃ s : ℚ, 0 ≤ s ∧ s ≤ 1 ∧
            p.x = pa.x + s * (pc.x - pa.x) ∧ p.y = pa.y + s * (pc.y - pa.y)) ∧
      (∀ a i c pa pc p, a < i → i < c → flagAt v a = true → flagAt v c = true →
        (∀ j, a < j → j < c → j ≠ i → flagAt v j = false) →
        pts[a]? = some pa → pts[c]? = some pc → pts[i]? = some p →
        consider_dist pa pc p ≠ 0 → flagAt v i = true) := by
  obtain ⟨v, hv, hd, hp, hb⟩ := select_bound pts 0 hne
  have hzero : ∀ i, i < pts.length → flagAt v i = false →
      ∃ a c, a < i ∧ i < c ∧ c < pts.length ∧ flagAt v a = true ∧ flagAt v c = true ∧
        (∀ j, a < j → j < c → flagAt v j = false) ∧ distAt v a c i = 0 := by
    intro i hi hfi
    obtain ⟨a, c, h1, h2, h3, h4, h5, h6, h7⟩ := hb i hi hfi
    refine ⟨a, c, h1, h2, h3, h4, h5, h6, ?_⟩
    rw [mul_zero] at h7
    exact le_antisymm h7 (consider_dist_nonneg _ _ _)
  have hlen : v.length = pts.length := by rw [← hp]; simp
  refine ⟨v, hv, hd, hp, ?_, ?_⟩
  · intro i hi hfi
    obtain ⟨a, c, h1, h2, h3, h4, h5, h6, h7⟩ := hzero i hi hfi
    obtain ⟨s, hs0, hs1, hx, hy⟩ := consider_dist_eq_zero _ _ _ h7
    refine ⟨a, c, pointAt v a, pointAt v c, pointAt v i, h1, h2, h3, h4, h5, h6,
      pointAt_of_map v pts hp a (by omega), pointAt_of_map v pts hp c h3,
      pointAt_of_map v pts hp i hi, h7, ?_, s, hs0, hs1, hx, hy⟩
    rw [hx, hy]; ring
  · intro a i c pa pc p hai hic hfa hfc hbetween hpa hpc hpi hdist
    by_contra hfi
    have hfi2 : flagAt v i = false := by simpa using hfi
    have hc : c < pts.length := by rw [← hlen]; exact flagAt_lt_length v c hfc
    obtain ⟨a2, c2, h1, h2, h3, h4, h5, h6, h7⟩ := hzero i (by omega) hfi2
    have ha : a2 = a := by
      rcases Nat.lt_trichotomy a2 a with h | h | h
      · have := h6 a h (by omega); rw [hfa] at this; cases this
      · exact h
      · have := hbetween a2 h (by omega) (by omega); rw [h4] at this; cases this
    have hc2 : c2 = c := by
      rcases Nat.lt_trichotomy c2 c with h | h | h
      · have := hbetween c2 (by omega) h (by omega); rw [h5] at this; cases this
      · exact h
      · have := h6 c (by omega) h; rw [hfc] at this; cases this
    subst ha hc2
    apply hdist
    have e1 := pointAt_of_map v pts hp a2 (by omega)
    have e2 := pointAt_of_map v pts hp c2 hc
    have e3 := pointAt_of_map v pts hp i (by omega)
    rw [hpa] at e1; rw [hpc] at e2; rw [hpi] at e3
    cases e1; cases e2; cases e3
    exact h7

/-- Witness of C8 on the input (0,0), (1,1), (2,2). -/
theorem C8_zero_tolerance_witness :
    ([⟨0, 0⟩, ⟨1, 1⟩, ⟨2, 2⟩] : List Point) ≠ [] ∧
    ∃ v, select [⟨0, 0⟩, ⟨1, 1⟩, ⟨2, 2⟩] 0 = some v ∧
      douglas_peucker [⟨0, 0⟩, ⟨1, 1⟩, ⟨2, 2⟩] 0 = some (emit v) ∧
      v.map (fun d => d.p) = [⟨0, 0⟩, ⟨1, 1⟩, ⟨2, 2⟩] ∧
      (∀ i, i < ([⟨0, 0⟩, ⟨1, 1⟩, ⟨2, 2⟩] : List Point).length → flagAt v i = false →
        ∃ a c pa pc p, a < i ∧ i < c ∧ c < ([⟨0, 0⟩, ⟨1, 1⟩, ⟨2, 2⟩] : List Point).length ∧
          flagAt v a = true ∧ flagAt v c = true ∧
          (∀ j, a < j → j < c → flagAt v j = false) ∧
          ([⟨0, 0⟩, ⟨1, 1⟩, ⟨2, 2⟩] : List Point)[a]? = some pa ∧
          ([⟨0, 0⟩, ⟨1, 1⟩, ⟨2, 2⟩] : List Point)[c]? = some pc ∧
          ([⟨0, 0⟩, ⟨1, 1⟩, ⟨2, 2⟩] : List Point)[i]? = some p ∧
          consider_dist pa pc p = 0 ∧
          (pc.x - pa.x) * (p.y - pa.y) - (pc.y - pa.y) * (p.x - pa.x) = 0 ∧
          ∃ s : ℚ, 0 ≤ s ∧ s ≤ 1 ∧
            p.x = pa.x + s * (pc.x - pa.x) ∧ p.y = pa.y + s * (pc.y - pa.y)) ∧
      (∀ a i c pa pc p, a < i → i < c → flagAt v a = true → flagAt v c = true →
        (∀ j, a < j → j < c → j ≠ i → flagAt v j = false) →
        ([⟨0, 0⟩, ⟨1, 1⟩, ⟨2, 2⟩] : List Point)[a]? = some pa →
        ([⟨0, 0⟩, ⟨1, 1⟩, ⟨2, 2⟩] : List Point)[c]? = some pc →
        ([⟨0, 0⟩, ⟨1, 1⟩, ⟨2, 2⟩] : List Point)[i]? = some p →
        consider_dist pa pc p ≠ 0 → flagAt v i = true) :=
  ⟨by simp, C8_zero_tolerance [⟨0, 0⟩, ⟨1, 1⟩, ⟨2, 2⟩] (by simp)⟩

/-- C8, counterexample.  With `calc_type = double` (IEEE binary64) and tolerance
0, `douglas_peucker` on the three `double` points (0,0), (1, 2^-600), (2,0)
drops the interior point: `dy * dy = 2^-1200` underflows to 0, the computed
`dist` is 0 and `max_dist < md` is `0 < 0`.  The dropped point is not collinear
with its enclosing emitted points (0,0) and (2,0), does not lie on the segment
between them, and its exact squared distance to that segment is not 0. -/
theorem C8_zero_tolerance_counterexample :
    double_round (1 / 2 ^ 600) = 1 / 2 ^ 600 ∧
    consider_dist_fl double_round ⟨0, 0⟩ ⟨2, 0⟩ ⟨1, 1 / 2 ^ 600⟩ = 0 ∧
    select_fl double_round [⟨0, 0⟩, ⟨1, 1 / 2 ^ 600⟩, ⟨2, 0⟩] 0
      = some [⟨⟨0, 0⟩, true⟩, ⟨⟨1, 1 / 2 ^ 600⟩, false⟩, ⟨⟨2, 0⟩, true⟩] ∧
    douglas_peucker_fl double_round [⟨0, 0⟩, ⟨1, 1 / 2 ^ 600⟩, ⟨2, 0⟩] 0
      = some [⟨0, 0⟩, ⟨2, 0⟩] ∧
    ((2 : ℚ) - 0) * (1 / 2 ^ 600 - 0) - (0 - 0) * (1 - 0) ≠ 0 ∧
    (¬ ∃ s : ℚ, 0 ≤ s ∧ s ≤ 1 ∧ (1 : ℚ) = 0 + s * (2 - 0) ∧
      (1 / 2 ^ 600 : ℚ) = 0 + s * (0 - 0)) ∧
    consider_dist ⟨0, 0⟩ ⟨2, 0⟩ ⟨1, 1 / 2 ^ 600⟩ ≠ 0 := by
  have hpow : (1 / 2 ^ 600 : ℚ) = (2 : ℚ) ^ (-600 : ℤ) := by
    rw [zpow_neg, one_div]
    norm_cast
  have hsq : (1 / 2 ^ 600 : ℚ) * (1 / 2 ^ 600) = (2 : ℚ) ^ (-1200 : ℤ) := by
    rw [hpow, ← zpow_add₀ (by norm_num : (2 : ℚ) ≠ 0)]
    norm_num
  have hy1 : double_round (1 / 2 ^ 600) = 1 / 2 ^ 600 := by
    rw [hpow]; exact double_round_two_zpow (-600) (by norm_num)
  have hy2 : double_round ((1 / 2 ^ 600) * (1 / 2 ^ 600)) = 0 := by
    rw [hsq]; exact double_round_underflow (-1200) (by norm_num)
  have hne : (1 / 2 ^ 600 : ℚ) ≠ 0 := by positivity
  have hsel := select_fl_underflow (1 / 2 ^ 600) hy1 hy2
  refine ⟨hy1, consider_dist_fl_underflow _ hy1 hy2, hsel, ?_, ?_, ?_, ?_⟩
  · rw [douglas_peucker_fl, hsel]
    simp [emit]
  · simp only [sub_zero, zero_mul]
    exact mul_ne_zero (by norm_num) hne
  · rintro ⟨s, -, -, -, h⟩
    rw [sub_self, mul_zero, add_zero] at h
    exact hne h
  · intro h
    obtain ⟨s, -, -, -, hy⟩ := consider_dist_eq_zero _ _ _ h
    simp only [sub_self, mul_zero, add_zero] at hy
    exact hne hy

/-- C9 (pass-through of short inputs).  For an input of exactly one or exactly
two points and any tolerance the output of `douglas_peucker` is the input: one
point is emitted once, two points are both emitted. -/
theorem C9_short_inputs (pts : List Point) (t : ℚ)
    (hlen : pts.length = 1 ∨ pts.length = 2) : douglas_peucker pts t = some pts := by
  have hne : pts ≠ [] := by
    intro h; subst h; simp at hlen
  obtain ⟨v1, hs, hl, hp, hf⟩ := select_start pts t hne
  have hv : select pts t = some v1 := by
    rw [hs]; exact consider_small v1 0 v1.length (t * t) (by omega)
  have he : emit v1 = v1.map (fun d => d.p) := by
    apply emit_all
    intro i hi
    rw [hf]
    have : i = 0 ∨ i = pts.length - 1 := by omega
    rcases this with h | h <;> simp [h]
  simp [douglas_peucker, hv, he, hp]

/-- Witness of C9: the two points (0,0), (5,5) stay (0,0), (5,5). -/
theorem C9_short_inputs_witness :
    ((([⟨0, 0⟩, ⟨5, 5⟩] : List Point).length = 1 ∨
      ([⟨0, 0⟩, ⟨5, 5⟩] : List Point).length = 2)) ∧
    douglas_peucker [⟨0, 0⟩, ⟨5, 5⟩] 3 = some [⟨0, 0⟩, ⟨5, 5⟩] :=
  ⟨by decide, C9_short_inputs [⟨0, 0⟩, ⟨5, 5⟩] 3 (by decide)⟩

/-- C10 (minimum output length).  For an input of at least two points and any
tolerance the output of `douglas_peucker` has at least two points and no more
points than the input. -/
theorem C10_min_length (pts : List Point) (t : ℚ) (h2 : 2 ≤ pts.length) :
    ∃ out, douglas_peucker pts t = some out ∧ 2 ≤ out.length ∧
      out.length ≤ pts.length := by
  have hne : pts ≠ [] := by
    intro h; subst h; simp at h2
  obtain ⟨v, -, hd, hl, hp, h0, hn⟩ := select_spec pts t hne
  refine ⟨emit v, hd, ?_, ?_⟩
  · rw [emit_eq_kept, List.length_map]
    exact kept_indices_length_ge v (by omega) h0 (by rw [hl]; exact hn)
  · rw [← hl]; exact emit_length_le v

/-- Witness of C10 on the input (0,0), (1,1), (2,2) with tolerance 1. -/
theorem C10_min_length_witness :
    2 ≤ ([⟨0, 0⟩, ⟨1, 1⟩, ⟨2, 2⟩] : List Point).length ∧
    ∃ out, douglas_peucker [⟨0, 0⟩, ⟨1, 1⟩, ⟨2, 2⟩] 1 = some out ∧ 2 ≤ out.length ∧
      out.length ≤ ([⟨0, 0⟩, ⟨1, 1⟩, ⟨2, 2⟩] : List Point).length :=
  ⟨by decide, C10_min_length [⟨0, 0⟩, ⟨1, 1⟩, ⟨2, 2⟩] 1 (by decide)⟩

/-! ## Further properties: the empty input, totality, the scan and its distance, the frame -/

/-- C11, as amended.  For the empty point sequence and any tolerance the first
statement after the construction of the candidates, the endpoint marking
`ref_candidates.front().included = true`, is an access to an element of an empty
vector, which is undefined: the selection and `douglas_peucker` have no defined
result on the empty input.  A non-empty input is a precondition of
`douglas_peucker`. -/
theorem C11_empty_input_amended (t : ℚ) :
    set_included (([] : List Point).map douglas_peucker_point.ofPoint) 0 = none ∧
    select [] t = none ∧ douglas_peucker [] t = none :=
  ⟨rfl, rfl, rfl⟩

/-- C11, counterexample.  On the empty input with tolerance 0 `douglas_peucker`
does not produce the empty output by a defined run. -/
theorem C11_empty_input_counterexample : douglas_peucker [] 0 ≠ some [] := by
  simp [douglas_peucker, select, set_included]

/-- C12 (totality).  On every range `[b, e)` inside the vector and for every
threshold `consider` returns, with a vector of the same length.  When the range
has at least three elements the candidate `c` its scan finds is strictly
interior, so both ranges it may recurse on, `[b, c + 1)` and `[c, e)`, have
strictly fewer elements than `[b, e)`.  Hence `douglas_peucker` returns an output
on every non-empty input. -/
theorem C12_totality (v : List douglas_peucker_point) (b e : Nat) (m : ℚ)
    (hlen : e ≤ v.length) :
    (∃ v3, consider v b e m = some v3 ∧ v3.length = v.length) ∧
    (2 < e - b → ∃ md c,
      scan v (pointAt v b) (pointAt v (e - 1)) (e - 1 - (b + 1)) (b + 1) (-1, none)
        = some (md, some c) ∧
      b < c ∧ c < e - 1 ∧ (c + 1) - b < e - b ∧ e - c < e - b) ∧
    (∀ (pts : List Point) (t : ℚ), pts ≠ [] → ∃ out, douglas_peucker pts t = some out) := by
  refine ⟨?_, ?_, ?_⟩
  · obtain ⟨v3, h, hl, -⟩ := consider_frame_aux m v b e hlen
    exact ⟨v3, h, hl⟩
  · intro hsize
    obtain ⟨md, c, hs, h1, h2, -⟩ := scan_isSplit v b e hsize hlen
    exact ⟨md, c, hs, h1, h2, by omega, by omega⟩
  · intro pts t hne
    obtain ⟨v1, -, hd, -⟩ := select_spec pts t hne
    exact ⟨emit v1, hd⟩

/-- Witness of C12 on the whole range of a vector of three candidates. -/
theorem C12_totality_witness :
    ∃ v3, consider [⟨⟨0, 0⟩, true⟩, ⟨⟨1, 1⟩, false⟩, ⟨⟨2, 0⟩, true⟩] 0 3 0 = some v3 ∧
      v3.length = ([⟨⟨0, 0⟩, true⟩, ⟨⟨1, 1⟩, false⟩, ⟨⟨2, 0⟩, true⟩] :
        List douglas_peucker_point).length :=
  (C12_totality [⟨⟨0, 0⟩, true⟩, ⟨⟨1, 1⟩, false⟩, ⟨⟨2, 0⟩, true⟩] 0 3 0 (by decide)).1

/-- C13 (distance correctness).  The value `dist` that `consider` computes for
`p` against `first` and `last` is the squared Euclidean distance from `p` to the
closed segment from `first` to `last`: it is at most the squared distance to
every point `first + s * (last - first)` with `0 ≤ s ≤ 1`, and it is the squared
distance to one of them, namely `s = 0` when `c1 ≤ 0`, `s = 1` when `0 < c1` and
`c2 ≤ c1`, and `s = c1 / c2` otherwise.  In particular it is not negative. -/
theorem C13_distance (first last p : Point) :
    (∀ s : ℚ, 0 ≤ s → s ≤ 1 → consider_dist first last p ≤ sq_dist_at first last p s) ∧
    (∃ s : ℚ, 0 ≤ s ∧ s ≤ 1 ∧ consider_dist first last p = sq_dist_at first last p s) ∧
    0 ≤ consider_dist first last p ∧
    ((p.x - first.x) * (last.x - first.x) + (p.y - first.y) * (last.y - first.y) ≤ 0 →
      consider_dist first last p = sq_dist_at first last p 0) ∧
    (0 < (p.x - first.x) * (last.x - first.x) + (p.y - first.y) * (last.y - first.y) →
      (last.x - first.x) * (last.x - first.x) + (last.y - first.y) * (last.y - first.y)
        ≤ (p.x - first.x) * (last.x - first.x) + (p.y - first.y) * (last.y - first.y) →
      consider_dist first last p = sq_dist_at first last p 1) ∧
    (0 < (p.x - first.x) * (last.x - first.x) + (p.y - first.y) * (last.y - first.y) →
      (p.x - first.x) * (last.x - first.x) + (p.y - first.y) * (last.y - first.y)
        < (last.x - first.x) * (last.x - first.x) + (last.y - first.y) * (last.y - first.y) →
      consider_dist first last p = sq_dist_at first last p
        (((p.x - first.x) * (last.x - first.x) + (p.y - first.y) * (last.y - first.y)) /
          ((last.x - first.x) * (last.x - first.x) + (last.y - first.y) * (last.y - first.y)))) := by
  refine ⟨consider_dist_le_sq_dist_at first last p, consider_dist_attained first last p,
    consider_dist_nonneg first last p, ?_, ?_, ?_⟩
  · intro h
    unfold consider_dist sq_dist_at
    simp only [h, if_true]
    ring
  · intro h1 h2
    unfold consider_dist sq_dist_at
    simp only [not_le.mpr h1, h2, if_true, if_false]
    ring
  · intro h1 h2
    unfold consider_dist sq_dist_at
    simp only [not_le.mpr h1, not_le.mpr h2, if_false]

/-- C14 (tie-breaking).  On a range of at least three candidates inside the
vector the scan of `consider` leaves in `candidate` an interior index `c` and in
`md` the distance of `c`; no interior distance exceeds `md`, every interior
index before `c` has a strictly smaller distance, so every interior index whose
distance equals `md` is `c` or later; and `consider` splits at this `c` exactly
when `md` exceeds the threshold. -/
theorem C14_tie_break (v : List douglas_peucker_point) (b e : Nat) (m : ℚ)
    (hsize : 2 < e - b) (hlen : e ≤ v.length) :
    ∃ md c,
      scan v (pointAt v b) (pointAt v (e - 1)) (e - 1 - (b + 1)) (b + 1) (-1, none)
        = some (md, some c) ∧
      b < c ∧ c < e - 1 ∧ md = distAt v b (e - 1) c ∧
      (∀ i, b < i → i < e - 1 → distAt v b (e - 1) i ≤ md) ∧
      (∀ i, b < i → i < c → distAt v b (e - 1) i < md) ∧
      (∀ i, b < i → i < e - 1 → distAt v b (e - 1) i = md → c ≤ i) ∧
      consider v b e m =
        if m < md then
          (set_included v c).bind fun v1 =>
            (consider v1 b (c + 1) m).bind fun v2 => consider v2 c e m
        else some v := by
  obtain ⟨md, c, hs, hsplit⟩ := scan_isSplit v b e hsize hlen
  obtain ⟨md2, c2, hsplit2, heq⟩ := consider_large v b e m hsize hlen
  obtain ⟨hmd, hc⟩ := isSplit_unique hsplit2 hsplit
  subst hmd hc
  obtain ⟨h1, h2, h3, h4, h5⟩ := hsplit
  refine ⟨md2, c2, hs, h1, h2, h3, h4, h5, ?_, heq⟩
  intro i hi1 _ hi3
  by_contra hlt
  have := h5 i hi1 (by omega)
  rw [hi3] at this
  exact lt_irrefl _ this

/-- Witness of C14: in (0,0), (1,1), (2,1), (3,0) the two interior points are
both at squared distance 1 from the segment from (0,0) to (3,0); the scan
keeps the first of them. -/
theorem C14_tie_break_witness :
    scan [⟨⟨0, 0⟩, true⟩, ⟨⟨1, 1⟩, false⟩, ⟨⟨2, 1⟩, false⟩, ⟨⟨3, 0⟩, true⟩]
      ⟨0, 0⟩ ⟨3, 0⟩ 2 1 (-1, none) = some (1, some 1) ∧
    ∃ md c,
      scan [⟨⟨0, 0⟩, true⟩, ⟨⟨1, 1⟩, false⟩, ⟨⟨2, 1⟩, false⟩, ⟨⟨3, 0⟩, true⟩]
          (pointAt [⟨⟨0, 0⟩, true⟩, ⟨⟨1, 1⟩, false⟩, ⟨⟨2, 1⟩, false⟩, ⟨⟨3, 0⟩, true⟩] 0)
          (pointAt [⟨⟨0, 0⟩, true⟩, ⟨⟨1, 1⟩, false⟩, ⟨⟨2, 1⟩, false⟩, ⟨⟨3, 0⟩, true⟩] (4 - 1))
          (4 - 1 - (0 + 1)) (0 + 1) (-1, none) = some (md, some c) ∧
      0 < c ∧ c < 4 - 1 ∧
      md = distAt [⟨⟨0, 0⟩, true⟩, ⟨⟨1, 1⟩, false⟩, ⟨⟨2, 1⟩, false⟩, ⟨⟨3, 0⟩, true⟩] 0 (4 - 1) c ∧
      (∀ i, 0 < i → i < 4 - 1 →
        distAt [⟨⟨0, 0⟩, true⟩, ⟨⟨1, 1⟩, false⟩, ⟨⟨2, 1⟩, false⟩, ⟨⟨3, 0⟩, true⟩] 0 (4 - 1) i
          ≤ md) ∧
      (∀ i, 0 < i → i < c →
        distAt [⟨⟨0, 0⟩, true⟩, ⟨⟨1, 1⟩, false⟩, ⟨⟨2, 1⟩, false⟩, ⟨⟨3, 0⟩, true⟩] 0 (4 - 1) i
          < md) ∧
      (∀ i, 0 < i → i < 4 - 1 →
        distAt [⟨⟨0, 0⟩, true⟩, ⟨⟨1, 1⟩, false⟩, ⟨⟨2, 1⟩, false⟩, ⟨⟨3, 0⟩, true⟩] 0 (4 - 1) i
          = md → c ≤ i) ∧
      consider [⟨⟨0, 0⟩, true⟩, ⟨⟨1, 1⟩, false⟩, ⟨⟨2, 1⟩, false⟩, ⟨⟨3, 0⟩, true⟩] 0 4 0 =
        if 0 < md then
          (set_included [⟨⟨0, 0⟩, true⟩, ⟨⟨1, 1⟩, false⟩, ⟨⟨2, 1⟩, false⟩, ⟨⟨3, 0⟩, true⟩]
              c).bind fun v1 =>
            (consider v1 0 (c + 1) 0).bind fun v2 => consider v2 c 4 0
        else some [⟨⟨0, 0⟩, true⟩, ⟨⟨1, 1⟩, false⟩, ⟨⟨2, 1⟩, false⟩, ⟨⟨3, 0⟩, true⟩] :=
  ⟨by norm_num [scan, consider_dist],
    C14_tie_break [⟨⟨0, 0⟩, true⟩, ⟨⟨1, 1⟩, false⟩, ⟨⟨2, 1⟩, false⟩, ⟨⟨3, 0⟩, true⟩] 0 4 0
      (by decide) (by decide)⟩

/-- C16 (selection frame).  For every vector, every range `[b, e)` inside it
and every threshold, `consider` returns a vector of the same length with the
same points; the elements outside the range, the first element of the range
and its last element are unchanged; and every flag that was set before the call
is set after it, so an interior flag changes only from `false` to `true`. -/
theorem C16_frame (v : List douglas_peucker_point) (b e : Nat) (m : ℚ)
    (hlen : e ≤ v.length) :
    ∃ v3, consider v b e m = some v3 ∧ v3.length = v.length ∧
      v3.map (fun d => d.p) = v.map (fun d => d.p) ∧
      (∀ j, j ≤ b ∨ e ≤ j + 1 → v3[j]? = v[j]?) ∧
      (∀ j, flagAt v j = true → flagAt v3 j = true) := by
  obtain ⟨v3, h, hl, hp, hf, hm⟩ := consider_frame_aux m v b e hlen
  refine ⟨v3, h, hl, map_p_eq_of_pointAt v3 v hl hp, ?_, hm⟩
  intro j hj
  exact getElem?_eq_of_point_flag v3 v hl j (hp j) (hf j hj)

/-- Witness of C16 on the whole range of a vector of three candidates, with
threshold 0: the interior flag goes from `false` to `true`. -/
theorem C16_frame_witness :
    ∃ v3, consider [⟨⟨0, 0⟩, true⟩, ⟨⟨1, 1⟩, false⟩, ⟨⟨2, 0⟩, true⟩] 0 3 0 = some v3 ∧
      v3.length = ([⟨⟨0, 0⟩, true⟩, ⟨⟨1, 1⟩, false⟩, ⟨⟨2, 0⟩, true⟩] :
        List douglas_peucker_point).length ∧
      v3.map (fun d => d.p)
        = ([⟨⟨0, 0⟩, true⟩, ⟨⟨1, 1⟩, false⟩, ⟨⟨2, 0⟩, true⟩] :
            List douglas_peucker_point).map (fun d => d.p) ∧
      (∀ j, j ≤ 0 ∨ 3 ≤ j + 1 → v3[j]?
        = ([⟨⟨0, 0⟩, true⟩, ⟨⟨1, 1⟩, false⟩, ⟨⟨2, 0⟩, true⟩] :
            List douglas_peucker_point)[j]?) ∧
      (∀ j, flagAt [⟨⟨0, 0⟩, true⟩, ⟨⟨1, 1⟩, false⟩, ⟨⟨2, 0⟩, true⟩] j = true →
        flagAt v3 j = true) :=
  C16_frame [⟨⟨0, 0⟩, true⟩, ⟨⟨1, 1⟩, false⟩, ⟨⟨2, 0⟩, true⟩] 0 3 0 (by decide)

/-- C17 (nested outputs).  For a non-empty input and tolerances `0 ≤ t1 ≤ t2`
every position flagged by the selection with `t2` is flagged by the selection
with `t1`, and the output for `t2` is a sublist of the output for `t1`. -/
theorem C17_nested (pts : List Point) (t1 t2 : ℚ) (hne : pts ≠ [])
    (h0 : 0 ≤ t1) (h12 : t1 ≤ t2) :
    ∃ v1 v2 out1 out2, select pts t1 = some v1 ∧ select pts t2 = some v2 ∧
      douglas_peucker pts t1 = some out1 ∧ douglas_peucker pts t2 = some out2 ∧
      out1 = emit v1 ∧ out2 = emit v2 ∧
      (∀ j, flagAt v2 j = true → flagAt v1 j = true) ∧
      out2.Sublist out1 := by
  obtain ⟨v1, v2, hs1, hs2, hd1, hd2, hp1, hp2, hfl⟩ := select_nested pts t1 t2 hne h0 h12
  refine ⟨v1, v2, emit v1, emit v2, hs1, hs2, hd1, hd2, rfl, rfl, hfl, ?_⟩
  have hlen : v2.length = v1.length := by
    have e1 := congrArg List.length hp1
    have e2 := congrArg List.length hp2
    simp only [List.length_map] at e1 e2
    omega
  have hpt : ∀ j, pointAt v2 j = pointAt v1 j := by
    intro j
    unfold pointAt
    have e1 : (v1.map (fun d => d.p))[j]? = (v2.map (fun d => d.p))[j]? := by rw [hp1, hp2]
    simp only [List.getElem?_map] at e1
    cases h1 : v1[j]? with
    | none =>
      cases h2 : v2[j]? with
      | none => rfl
      | some d2 => rw [h1, h2] at e1; simp at e1
    | some d1 =>
      cases h2 : v2[j]? with
      | none => rw [h1, h2] at e1; simp at e1
      | some d2 => rw [h1, h2] at e1; simpa using e1.symm
  rw [emit_eq_kept, emit_eq_kept]
  have hfun : pointAt v2 = pointAt v1 := funext hpt
  rw [hfun]
  apply List.Sublist.map
  unfold kept_indices
  rw [hlen]
  exact List.monotone_filter_right _ hfl

/-- Witness of C17 on the input (0,0), (1,1), (2,0) with tolerances 0 and 2. -/
theorem C17_nested_witness :
    ∃ v1 v2 out1 out2, select [⟨0, 0⟩, ⟨1, 1⟩, ⟨2, 0⟩] 0 = some v1 ∧
      select [⟨0, 0⟩, ⟨1, 1⟩, ⟨2, 0⟩] 2 = some v2 ∧
      douglas_peucker [⟨0, 0⟩, ⟨1, 1⟩, ⟨2, 0⟩] 0 = some out1 ∧
      douglas_peucker [⟨0, 0⟩, ⟨1, 1⟩, ⟨2, 0⟩] 2 = some out2 ∧
      out1 = emit v1 ∧ out2 = emit v2 ∧
      (∀ j, flagAt v2 j = true → flagAt v1 j = true) ∧
      out2.Sublist out1 :=
  C17_nested [⟨0, 0⟩, ⟨1, 1⟩, ⟨2, 0⟩] 0 2 (by simp) (le_refl _) (by norm_num)

/-- C19 (segment, not infinite line).  In the input (0,0), (10,0), (1,0) the
interior point (10,0) lies on the straight line through the first and the last
point, but at squared distance 81 from the segment between them, which is how
`consider` measures; with tolerance 0 it is retained and the output is
(0,0), (10,0), (1,0). -/
theorem C19_segment_not_line :
    (((⟨1, 0⟩ : Point).x - (⟨0, 0⟩ : Point).x) * ((⟨10, 0⟩ : Point).y - (⟨0, 0⟩ : Point).y)
      - ((⟨1, 0⟩ : Point).y - (⟨0, 0⟩ : Point).y) * ((⟨10, 0⟩ : Point).x - (⟨0, 0⟩ : Point).x)
      = 0) ∧
    consider_dist ⟨0, 0⟩ ⟨1, 0⟩ ⟨10, 0⟩ = 81 ∧
    select [⟨0, 0⟩, ⟨10, 0⟩, ⟨1, 0⟩] 0
      = some [⟨⟨0, 0⟩, true⟩, ⟨⟨10, 0⟩, true⟩, ⟨⟨1, 0⟩, true⟩] ∧
    douglas_peucker [⟨0, 0⟩, ⟨10, 0⟩, ⟨1, 0⟩] 0 = some [⟨0, 0⟩, ⟨10, 0⟩, ⟨1, 0⟩] := by
  refine ⟨by norm_num, by norm_num [consider_dist], select_three_on_a_line, ?_⟩
  rw [douglas_peucker, select_three_on_a_line]
  simp [emit]

/-- C20 (the candidate is always initialised).  On a range of at least three
candidates inside the vector every distance the scan computes is at least 0,
hence greater than the initial `md = -1`; after the scan `md ≥ 0` and
`candidate` is an initialised iterator to a strictly interior element, so the
scan never ends with the uninitialised iterator, the assignment
`candidate->included = true` is defined, both recursive ranges lie inside the
range, and `consider` returns for every threshold. -/
theorem C20_candidate_initialised (v : List douglas_peucker_point) (b e : Nat)
    (hsize : 2 < e - b) (hlen : e ≤ v.length) :
    (∀ i, 0 ≤ distAt v b (e - 1) i ∧ (-1 : ℚ) < distAt v b (e - 1) i) ∧
    ∃ md c,
      scan v (pointAt v b) (pointAt v (e - 1)) (e - 1 - (b + 1)) (b + 1) (-1, none)
        = some (md, some c) ∧
      (∀ md2, scan v (pointAt v b) (pointAt v (e - 1)) (e - 1 - (b + 1)) (b + 1) (-1, none)
        ≠ some (md2, none)) ∧
      0 ≤ md ∧ b < c ∧ c < e - 1 ∧
      (∃ v1, set_included v c = some v1 ∧ v1.length = v.length) ∧
      (b ≤ c + 1 ∧ c + 1 ≤ e ∧ c ≤ e) ∧
      ∀ m, ∃ v3, consider v b e m = some v3 := by
  have hnn : ∀ i, 0 ≤ distAt v b (e - 1) i := fun i => consider_dist_nonneg _ _ _
  refine ⟨fun i => ⟨hnn i, lt_of_lt_of_le (by norm_num) (hnn i)⟩, ?_⟩
  obtain ⟨md, c, hs, h1, h2, h3, -⟩ := scan_isSplit v b e hsize hlen
  obtain ⟨v1, hv1, hl1, -⟩ := set_included_spec v c (by omega)
  refine ⟨md, c, hs, ?_, by rw [h3]; exact hnn c, h1, h2, ⟨v1, hv1, hl1⟩, by omega, ?_⟩
  · intro md2 hcon
    rw [hs] at hcon
    cases hcon
  · intro m
    exact consider_total m v b e hlen

/-- Witness of C20 on the whole range of a vector of three candidates. -/
theorem C20_candidate_initialised_witness :
    ∃ md c,
      scan [⟨⟨0, 0⟩, true⟩, ⟨⟨1, 1⟩, false⟩, ⟨⟨2, 0⟩, true⟩]
          (pointAt [⟨⟨0, 0⟩, true⟩, ⟨⟨1, 1⟩, false⟩, ⟨⟨2, 0⟩, true⟩] 0)
          (pointAt [⟨⟨0, 0⟩, true⟩, ⟨⟨1, 1⟩, false⟩, ⟨⟨2, 0⟩, true⟩] (3 - 1))
          (3 - 1 - (0 + 1)) (0 + 1) (-1, none) = some (md, some c) ∧
      (∀ md2, scan [⟨⟨0, 0⟩, true⟩, ⟨⟨1, 1⟩, false⟩, ⟨⟨2, 0⟩, true⟩]
          (pointAt [⟨⟨0, 0⟩, true⟩, ⟨⟨1, 1⟩, false⟩, ⟨⟨2, 0⟩, true⟩] 0)
          (pointAt [⟨⟨0, 0⟩, true⟩, ⟨⟨1, 1⟩, false⟩, ⟨⟨2, 0⟩, true⟩] (3 - 1))
          (3 - 1 - (0 + 1)) (0 + 1) (-1, none) ≠ some (md2, none)) ∧
      0 ≤ md ∧ 0 < c ∧ c < 3 - 1 ∧
      (∃ v1, set_included [⟨⟨0, 0⟩, true⟩, ⟨⟨1, 1⟩, false⟩, ⟨⟨2, 0⟩, true⟩] c = some v1 ∧
        v1.length = ([⟨⟨0, 0⟩, true⟩, ⟨⟨1, 1⟩, false⟩, ⟨⟨2, 0⟩, true⟩] :
          List douglas_peucker_point).length) ∧
      (0 ≤ c + 1 ∧ c + 1 ≤ 3 ∧ c ≤ 3) ∧
      ∀ m, ∃ v3, consider [⟨⟨0, 0⟩, true⟩, ⟨⟨1, 1⟩, false⟩, ⟨⟨2, 0⟩, true⟩] 0 3 m = some v3 :=
  (C20_candidate_initialised [⟨⟨0, 0⟩, true⟩, ⟨⟨1, 1⟩, false⟩, ⟨⟨2, 0⟩, true⟩] 0 3
    (by decide) (by decide)).2

end vector_tile_impl
